import Mathlib

set_option maxHeartbeats 1000000
set_option maxRecDepth 4000
set_option linter.unusedVariables false

/-! Verification of the utility module rasa/nlu/utils/__init__.py.

Each Python function of the module is embedded as an executable Lean
definition over explicit data: strings are Lean strings, the filesystem is a
finite directory tree, fallible operations return Except, and the standard
library calls the module makes (os.walk, os.path.splitext, os.path.relpath,
re.match on a literal alternation, json.dumps/json.loads, dict operations)
are embedded faithfully following their documented CPython semantics.
Theorems below settle the specification claims about these functions. -/

/- ### Generic character-list helpers -/

/-- The apostrophe character, written by code point to keep source plain. -/
def quoteChar : Char := Char.ofNat 39

/-- The backslash character, written by code point. -/
def backslashChar : Char := Char.ofNat 92

/-- Number of positions at which pat occurs as a (possibly overlapping)
substring of the character list. -/
def countOcc (pat : List Char) : List Char → Nat
  | [] => 0
  | c :: rest => (if pat.isPrefixOf (c :: rest) then 1 else 0) + countOcc pat rest

/- ### list_to_str -/

/-- Characters of the default delimiter ", " of list_to_str. -/
def delimChars : List Char := [',', ' ']

/-- Python str.join restricted to a list of strings: delim.join(pieces). -/
def pyJoin (delim : String) : List String → String
  | [] => ""
  | [x] => x
  | x :: y :: xs => x ++ delim ++ pyJoin delim (y :: xs)

/-- The default quote argument of list_to_str, a single apostrophe. -/
def quoteDefault : String := String.singleton quoteChar

/-- Embedding of list_to_str: delim.join([quote + e + quote for e in lst]). -/
def list_to_str (lst : List String) (delim : String := ", ")
    (quote : String := quoteDefault) : String :=
  pyJoin delim (lst.map fun e => quote ++ e ++ quote)

/- ### is_url -/

/-- Matcher for one literal regex alternative anchored at the start of the
input, as re.match does for a literal pattern. -/
def matchLit : List Char → List Char → Bool
  | [], _ => true
  | _ :: _, [] => false
  | p :: ps, c :: cs => p == c && matchLit ps cs

/-- re.match for an alternation of literal patterns: the match succeeds
when some alternative matches at position zero. -/
def reMatchFirst (pats : List (List Char)) (s : List Char) : Bool :=
  pats.any fun p => matchLit p s

/-- The five literal alternatives of the compiled pattern
http://|https://|ftp://|file://|file:\ used by is_url. -/
def URL_REGEX : List (List Char) :=
  ["http://".data, "https://".data, "ftp://".data, "file://".data,
    ['f', 'i', 'l', 'e', ':', backslashChar]]

/-- Embedding of is_url: URL_REGEX.match(resource_name) is not None. -/
def is_url (resource_name : String) : Bool :=
  reMatchFirst URL_REGEX resource_name.data

/- ### Lemmas about countOcc and list_to_str -/

theorem countOcc_nil (pat : List Char) : countOcc pat [] = 0 := rfl

theorem isPrefixOf_delim_iff (c a : Char) (t2 : List Char) :
    delimChars.isPrefixOf (c :: a :: t2) = true ↔ (c = ',' ∧ a = ' ') := by
  simp only [delimChars, List.isPrefixOf, Bool.and_eq_true, beq_iff_eq]
  constructor
  · rintro ⟨h1, h2, _⟩; exact ⟨h1.symm, h2.symm⟩
  · rintro ⟨h1, h2⟩; exact ⟨h1.symm, h2.symm, trivial⟩

theorem countOcc_delim_cons (c : Char) (t : List Char) :
    countOcc delimChars (c :: t) =
      (if c = ',' ∧ t.head? = some ' ' then 1 else 0) + countOcc delimChars t := by
  cases t with
  | nil =>
    have hpf : delimChars.isPrefixOf [c] = false := by
      simp [delimChars, List.isPrefixOf]
    simp only [countOcc, hpf, List.head?_nil, Bool.false_eq_true, if_false]
    have : ¬(c = ',' ∧ (none : Option Char) = some ' ') := fun h => by cases h.2
    rw [if_neg this]
  | cons a t2 =>
    simp only [countOcc]
    by_cases h : c = ',' ∧ a = ' '
    · rw [if_pos ((isPrefixOf_delim_iff c a t2).mpr h)]
      have h2 : c = ',' ∧ (a :: t2).head? = some ' ' := ⟨h.1, by rw [List.head?_cons, h.2]⟩
      rw [if_pos h2]
    · have h1 : ¬(delimChars.isPrefixOf (c :: a :: t2) = true) :=
        fun hh => h ((isPrefixOf_delim_iff c a t2).mp hh)
      rw [if_neg h1]
      have h2 : ¬(c = ',' ∧ (a :: t2).head? = some ' ') := by
        intro hh
        exact h ⟨hh.1, Option.some.inj (by simpa using hh.2)⟩
      rw [if_neg h2]

theorem countOcc_delim_append (xs ys : List Char) :
    countOcc delimChars (xs ++ ys) =
      countOcc delimChars xs + countOcc delimChars ys +
        (if xs.getLast? = some ',' ∧ ys.head? = some ' ' then 1 else 0) := by
  induction xs with
  | nil =>
    simp only [List.nil_append, countOcc_nil, List.getLast?_nil, Nat.zero_add]
    have : ¬((none : Option Char) = some ',' ∧ ys.head? = some ' ') := fun h => by cases h.1
    rw [if_neg this]
    omega
  | cons c xs ih =>
    rw [List.cons_append, countOcc_delim_cons, ih, countOcc_delim_cons]
    cases xs with
    | nil =>
      simp only [List.nil_append, List.head?_nil, List.getLast?_nil, countOcc_nil,
        List.getLast?_singleton]
      have e1 : ¬(c = ',' ∧ (none : Option Char) = some ' ') := fun h => by cases h.2
      have e2 : ¬((none : Option Char) = some ',' ∧ ys.head? = some ' ') := fun h => by cases h.1
      have e3 : (some c = some ',' ∧ ys.head? = some ' ') ↔ (c = ',' ∧ ys.head? = some ' ') := by
        simp
      rw [if_neg e1, if_neg e2, if_congr e3 rfl rfl]
      omega
    | cons d xs2 =>
      simp only [List.cons_append, List.head?_cons, List.getLast?_cons_cons]
      omega

theorem countOcc_single (c : Char) : countOcc delimChars [c] = 0 := by
  simp [countOcc, delimChars, List.isPrefixOf]

/-- A quoted element contributes no delimiter occurrence when the element
itself contains none. -/
theorem countOcc_quoted (e : String) (he : countOcc delimChars e.data = 0) :
    countOcc delimChars (quoteChar :: (e.data ++ [quoteChar])) = 0 := by
  rw [countOcc_delim_cons, countOcc_delim_append, countOcc_single, he]
  have h1 : ¬(quoteChar = ',' ∧ (e.data ++ [quoteChar]).head? = some ' ') := by
    intro h; exact absurd h.1 (by decide)
  have h2 : ¬(e.data.getLast? = some ',' ∧ ([quoteChar] : List Char).head? = some ' ') := by
    intro h
    have h3 : some quoteChar = some ' ' := h.2
    have h4 : quoteChar = ' ' := Option.some.inj h3
    exact absurd h4 (by decide)
  rw [if_neg h1, if_neg h2]

theorem data_quoted (e : String) :
    (quoteDefault ++ e ++ quoteDefault).data = quoteChar :: (e.data ++ [quoteChar]) := by
  simp [quoteDefault, String.singleton, String.data_append]

/-- Delimiter count of the default-argument join, for elements free of the
delimiter. -/
theorem countOcc_list_to_str (s : List String) (hs : s ≠ [])
    (helem : ∀ e ∈ s, countOcc delimChars e.data = 0) :
    countOcc delimChars (list_to_str s).data = s.length - 1 := by
  induction s with
  | nil => exact absurd rfl hs
  | cons x rest ih =>
    cases rest with
    | nil =>
      show countOcc delimChars (quoteDefault ++ x ++ quoteDefault).data = 0
      rw [data_quoted]
      exact countOcc_quoted x (helem x (by simp))
    | cons y rest2 =>
      have hx : countOcc delimChars (quoteDefault ++ x ++ quoteDefault).data = 0 := by
        rw [data_quoted]; exact countOcc_quoted x (helem x (by simp))
      have hstep :
          (list_to_str (x :: y :: rest2)).data =
            (quoteDefault ++ x ++ quoteDefault).data ++
              ((", " : String).data ++ (list_to_str (y :: rest2)).data) := by
        show (pyJoin ", " _).data = _
        simp only [List.map_cons, pyJoin, String.data_append, List.append_assoc]
        rfl
      rw [hstep, countOcc_delim_append, hx]
      have hmid :
          countOcc delimChars ((", " : String).data ++ (list_to_str (y :: rest2)).data) =
            1 + countOcc delimChars (list_to_str (y :: rest2)).data := by
        rw [countOcc_delim_append]
        have hone : countOcc delimChars (", " : String).data = 1 := by decide
        have hlast : ((", " : String).data.getLast? = some ' ') := by decide
        have hno : ¬((", " : String).data.getLast? = some ',' ∧
            (list_to_str (y :: rest2)).data.head? = some ' ') := by
          intro h
          rw [hlast] at h
          exact absurd (Option.some.inj h.1) (by decide)
        rw [hone, if_neg hno]
        omega
      have hq1 : (quoteDefault ++ x ++ quoteDefault).data.getLast? = some quoteChar := by
        rw [data_quoted, ← List.cons_append, List.getLast?_concat]
      have hbound : ¬((quoteDefault ++ x ++ quoteDefault).data.getLast? = some ',' ∧
          ((", " : String).data ++ (list_to_str (y :: rest2)).data).head? = some ' ') := by
        intro h
        rw [hq1] at h
        exact absurd (Option.some.inj h.1) (by decide)
      rw [hmid, if_neg hbound,
        ih (List.cons_ne_nil y rest2) (fun e hmem => helem e (List.mem_cons_of_mem x hmem))]
      simp only [List.length_cons]
      omega

/-- Each element appears wrapped in the quote character inside the join. -/
theorem list_to_str_wraps (s : List String) (e : String) (he : e ∈ s) :
    ∃ pre post : List Char,
      (list_to_str s).data = pre ++ (quoteChar :: (e.data ++ [quoteChar])) ++ post := by
  induction s with
  | nil => cases he
  | cons x rest ih =>
    cases rest with
    | nil =>
      rcases List.mem_singleton.mp he with rfl
      refine ⟨[], [], ?_⟩
      show (quoteDefault ++ e ++ quoteDefault).data = _
      rw [data_quoted]
      simp
    | cons y rest2 =>
      have hstep :
          (list_to_str (x :: y :: rest2)).data =
            (quoteDefault ++ x ++ quoteDefault).data ++
              ((", " : String).data ++ (list_to_str (y :: rest2)).data) := by
        show (pyJoin ", " _).data = _
        simp only [List.map_cons, pyJoin, String.data_append, List.append_assoc]
        rfl
      rcases List.mem_cons.mp he with rfl | hmem
      · refine ⟨[], (", " : String).data ++ (list_to_str (y :: rest2)).data, ?_⟩
        rw [hstep, data_quoted]
        simp
      · rcases ih hmem with ⟨pre, post, hjoin⟩
        refine ⟨(quoteDefault ++ x ++ quoteDefault).data ++ (", " : String).data ++ pre,
          post, ?_⟩
        rw [hstep, hjoin]
        simp

/-- C5 (amended): list_to_str of the empty sequence is the empty string, and
for every non-empty sequence of strings none of which contains the default
delimiter ", " as a substring, the result contains exactly length - 1
occurrences of the delimiter and every element wrapped on both sides by the
quote character. -/
theorem list_to_str_spec :
    list_to_str [] = "" ∧
    ∀ s : List String, s ≠ [] → (∀ e ∈ s, countOcc delimChars e.data = 0) →
      countOcc delimChars (list_to_str s).data = s.length - 1 ∧
      ∀ e ∈ s, ∃ pre post : List Char,
        (list_to_str s).data = pre ++ (quoteChar :: (e.data ++ [quoteChar])) ++ post := by
  refine ⟨rfl, fun s hs helem => ⟨countOcc_list_to_str s hs helem, ?_⟩⟩
  exact fun e he => list_to_str_wraps s e he

/-- C5 witness: the amended statement evaluated on the two-element list
consisting of "a" and "b". -/
theorem list_to_str_spec_witness :
    countOcc delimChars (list_to_str ["a", "b"]).data = (["a", "b"] : List String).length - 1 :=
  (list_to_str_spec.2 ["a", "b"] (by decide) (by decide)).1

/-- C5 counterexample: an element that itself contains the delimiter makes
the delimiter count exceed length - 1; the claim fails as universally
stated. -/
theorem list_to_str_count_counterexample :
    countOcc delimChars (list_to_str ["a, b"]).data ≠ (["a, b"] : List String).length - 1 := by
  decide

/- ### Theorems about is_url -/

theorem matchLit_iff (p s : List Char) : matchLit p s = true ↔ p <+: s := by
  induction p generalizing s with
  | nil => simp [matchLit]
  | cons a ps ih =>
    cases s with
    | nil => simp [matchLit]
    | cons b t => simp [matchLit, List.cons_prefix_cons, ih]

/-- C6: is_url is true exactly when the text begins with one of the literal
prefixes http://, https://, ftp://, file:// or file:backslash, and is false
on the empty string. -/
theorem is_url_iff_scheme :
    (∀ s : String, is_url s = true ↔
      ("http://".data <+: s.data ∨ "https://".data <+: s.data ∨
        "ftp://".data <+: s.data ∨ "file://".data <+: s.data ∨
        ['f', 'i', 'l', 'e', ':', backslashChar] <+: s.data)) ∧
    is_url "" = false := by
  constructor
  · intro s
    simp [is_url, reMatchFirst, URL_REGEX, matchLit_iff]
  · decide

/-- A character moved by Char.toLower is an ASCII uppercase letter. -/
theorem upper_of_toLower_ne (c : Char) (h : Char.toLower c ≠ c) :
    65 ≤ c.toNat ∧ c.toNat ≤ 90 := by
  by_contra hnot
  apply h
  simp only [Char.toLower]
  split
  · rename_i hcond
    exact absurd ⟨hcond.1, hcond.2⟩ hnot
  · rfl

/-- Char.toLower sends an ASCII uppercase letter to an ASCII lowercase
letter. -/
theorem toLower_toNat_of_upper (c : Char) (h : 65 ≤ c.toNat ∧ c.toNat ≤ 90) :
    97 ≤ (Char.toLower c).toNat ∧ (Char.toLower c).toNat ≤ 122 := by
  have hb : ∀ n, n < 91 → 65 ≤ n →
      97 ≤ (Char.ofNat (n + 32)).toNat ∧ (Char.ofNat (n + 32)).toNat ≤ 122 := by
    decide
  have hl : Char.toLower c = Char.ofNat (c.toNat + 32) := by
    simp only [Char.toLower]
    rw [if_pos ⟨h.1, h.2⟩]
  rw [hl]
  exact hb c.toNat (by omega) h.1

/-- A list that differs from its own Char.toLower image splits at a
character the lowering moves. -/
theorem map_toLower_ne_split :
    ∀ w : List Char, w ≠ w.map Char.toLower →
      ∃ a c b, w = a ++ c :: b ∧ Char.toLower c ≠ c := by
  intro w
  induction w with
  | nil => intro h; exact absurd rfl h
  | cons x t ih =>
    intro h
    by_cases hx : Char.toLower x = x
    · have ht : t ≠ t.map Char.toLower := by
        intro he
        apply h
        rw [List.map_cons, hx, ← he]
      obtain ⟨a, c, b, hab, hc⟩ := ih ht
      exact ⟨x :: a, c, b, by rw [hab, List.cons_append], hc⟩
    · exact ⟨[], x, t, rfl, hx⟩

/-- A list extending past the position of c in a list it is compared with,
while agreeing on a shared-prefix decomposition, contains c. -/
theorem mem_of_append_eq_cons :
    ∀ (a : List Char) (c : Char) (X q t : List Char),
      q ++ t = a ++ c :: X → a.length < q.length → c ∈ q := by
  intro a
  induction a with
  | nil =>
    intro c X q t heq hlen
    cases q with
    | nil => simp at hlen
    | cons qh qt =>
      rw [List.cons_append, List.nil_append] at heq
      injection heq with h1 h2
      rw [h1]
      exact List.mem_cons_self c qt
  | cons x a2 ih =>
    intro c X q t heq hlen
    cases q with
    | nil => simp at hlen
    | cons qh qt =>
      rw [List.cons_append, List.cons_append] at heq
      injection heq with h1 h2
      simp only [List.length_cons] at hlen
      exact List.mem_cons_of_mem qh (ih c X qt t h2 (by omega))

/-- C10: the scheme match of is_url is case-sensitive: for every scheme of
URL_REGEX and every uppercase or mixed-case variant of it, that is, a string
that lowercases to the scheme character by character but is not equal to it,
is_url rejects the variant followed by any suffix, such as
"HTTP://example.com" or "File://x". -/
theorem is_url_case_sensitive (v rest : String) (p : List Char)
    (hp : p ∈ URL_REGEX) (hlow : v.data.map Char.toLower = p)
    (hne : v.data ≠ p) :
    is_url (v ++ rest) = false := by
  have hvne : v.data ≠ v.data.map Char.toLower := by rw [hlow]; exact hne
  obtain ⟨a, c, b, hab, hc⟩ := map_toLower_ne_split v.data hvne
  have hupper : 65 ≤ c.toNat ∧ c.toNat ≤ 90 := upper_of_toLower_ne c hc
  have hlc : 97 ≤ (Char.toLower c).toNat ∧ (Char.toLower c).toNat ≤ 122 :=
    toLower_toNat_of_upper c hupper
  have hpdec : p = a.map Char.toLower ++ Char.toLower c :: b.map Char.toLower := by
    rw [← hlow, hab]
    simp
  have hdrop5 : ∀ q ∈ URL_REGEX, ∀ ch ∈ q.drop 5,
      ¬(97 ≤ ch.toNat ∧ ch.toNat ≤ 122) := by decide
  have halen : a.length < 5 := by
    by_contra hge
    push_neg at hge
    have hmem : Char.toLower c ∈ p.drop 5 := by
      rw [hpdec, List.drop_append_of_le_length (by simpa using hge)]
      exact List.mem_append_right _ (List.mem_cons_self _ _)
    exact hdrop5 p hp _ hmem hlc
  have hlen6 : ∀ q ∈ URL_REGEX, 6 ≤ q.length := by decide
  have hnoupper : ∀ q ∈ URL_REGEX, ∀ ch ∈ q,
      ¬(65 ≤ ch.toNat ∧ ch.toNat ≤ 90) := by decide
  cases hurl : is_url (v ++ rest) with
  | false => rfl
  | true =>
    exfalso
    simp only [is_url, reMatchFirst, List.any_eq_true] at hurl
    obtain ⟨q, hq, hmt⟩ := hurl
    obtain ⟨t, ht⟩ := (matchLit_iff q _).mp hmt
    rw [String.data_append, hab, List.append_assoc, List.cons_append] at ht
    have hql : a.length < q.length := by
      have := hlen6 q hq
      omega
    exact hnoupper q hq c (mem_of_append_eq_cons a c (b ++ rest.data) q t ht hql) hupper

/-- Concrete instance of the case-sensitivity theorem: the mixed-case check
at "HTTP://example.com". -/
theorem is_url_case_sensitive_witness :
    ("http://".data ∈ URL_REGEX ∧
      "HTTP://".data.map Char.toLower = "http://".data ∧
      "HTTP://".data ≠ "http://".data) ∧
    is_url ("HTTP://" ++ "example.com") = false :=
  ⟨by decide,
    is_url_case_sensitive "HTTP://" "example.com" "http://".data
      (by decide) (by decide) (by decide)⟩

/- ### Filesystem model: is_model_dir and remove_model -/

/-- A directory node of the filesystem: named subdirectories and the names
of the files directly contained. -/
inductive FSTree where
  | node (dirs : List (String × FSTree)) (files : List String)

/-- The subdirectory list of a node. -/
def FSTree.dirs : FSTree → List (String × FSTree)
  | .node ds _ => ds

/-- The file list of a node. -/
def FSTree.files : FSTree → List String
  | .node _ fs => fs

/-- Resolve a path, given as name segments, to the directory it addresses;
none when no such directory exists (also when a segment names a file, a path
os.walk likewise yields nothing for). -/
def lookupPath : FSTree → List String → Option FSTree
  | t, [] => some t
  | t, n :: rest =>
    match t.dirs.lookup n with
    | some child => lookupPath child rest
    | none => none

mutual

/-- os.walk in top-down order on an existing directory: one triple
(dirpath, dirnames, filenames) per reachable directory node. -/
def walk (p : List String) : FSTree → List (List String × List String × List String)
  | .node ds fs => (p, ds.map Prod.fst, fs) :: walkChildren p ds

/-- The concatenated walks of a list of child directories. -/
def walkChildren (p : List String) :
    List (String × FSTree) → List (List String × List String × List String)
  | [] => []
  | (n, t) :: rest => walk (p ++ [n]) t ++ walkChildren p rest

end

/-- Index from the front of the last dot of a file name, if any. -/
def rfindDot : List Char → Option Nat
  | [] => none
  | c :: rest =>
    match rfindDot rest with
    | some i => some (i + 1)
    | none => if c = '.' then some 0 else none

/-- os.path.splitext for a bare file name (names from os.walk contain no
directory separator): split at the last dot, except that a name whose every
character before that dot is itself a dot has no extension. -/
def splitext (p : String) : String × String :=
  match rfindDot p.data with
  | none => (p, "")
  | some d =>
    if (p.data.take d).any (fun c => c != '.') then
      (String.mk (p.data.take d), String.mk (p.data.drop d))
    else (p, "")

/-- The extension allow-list of is_model_dir. -/
def allowed_extensions : List String := [".json", ".pkl", ".dat"]

/-- Embedding of is_model_dir: list(os.walk(model_dir)) must have exactly one
entry, and every file extension of that entry must be allowed. os.walk of a
missing (or non-directory) path yields the empty list. -/
def is_model_dir (fs : FSTree) (model_dir : List String) : Bool :=
  let dir_tree :=
    match lookupPath fs model_dir with
    | some t => walk model_dir t
    | none => []
  match dir_tree with
  | [(_, _, files)] => files.all fun f => decide ((splitext f).2 ∈ allowed_extensions)
  | _ => false

/-- Rendering of a segment path, used in the error message of remove_model. -/
def pathToString (p : List String) : String := String.intercalate "/" p

/-- shutil.rmtree: delete the directory addressed by a non-empty path,
removing it from its parent together with everything below it. -/
def removePath : FSTree → List String → FSTree
  | t, [] => t
  | .node ds fs, [n] => .node (ds.filter fun c => c.1 != n) fs
  | .node ds fs, n :: rest =>
    .node (ds.map fun c => if c.1 = n then (c.1, removePath c.2 rest) else c) fs

/-- Embedding of remove_model: validate with is_model_dir first; on success
delete the tree and return True, otherwise raise ValueError naming the path
and leave the filesystem unchanged. -/
def remove_model (fs : FSTree) (model_dir : List String) :
    FSTree × Except String Bool :=
  if is_model_dir fs model_dir then (removePath fs model_dir, Except.ok true)
  else
    (fs, Except.error ("Cannot remove " ++ pathToString model_dir ++
      ", it seems it is not a model directory"))

/- ### Lemmas about the filesystem model -/

theorem walk_node_nil (p : List String) (files : List String) :
    walk p (FSTree.node [] files) = [(p, [], files)] := by
  rw [walk, walkChildren]
  simp

theorem walk_length_pos (p : List String) (t : FSTree) : 0 < (walk p t).length := by
  cases t with
  | node ds fs => rw [walk]; simp

theorem walkChildren_cons_length_pos (p : List String) (n : String) (t : FSTree)
    (rest : List (String × FSTree)) : 0 < (walkChildren p ((n, t) :: rest)).length := by
  rw [walkChildren]
  have := walk_length_pos (p ++ [n]) t
  simp only [List.length_append]
  omega

/-- C3: for an existing directory, is_model_dir holds exactly when the
directory has no subdirectory at any level and every directly contained file
has an extension in the allow-list; in particular it holds for a directory
with no files and no subdirectories. -/
theorem is_model_dir_iff (fs : FSTree) (d : List String) (t : FSTree)
    (h : lookupPath fs d = some t) :
    is_model_dir fs d = true ↔
      (t.dirs = [] ∧ ∀ f ∈ t.files, (splitext f).2 ∈ allowed_extensions) := by
  cases t with
  | node ds files =>
    cases ds with
    | nil =>
      rw [is_model_dir]
      simp only [h, walk_node_nil, FSTree.dirs, FSTree.files]
      simp [List.all_eq_true]
    | cons c rest =>
      rw [is_model_dir]
      simp only [h, FSTree.dirs, FSTree.files]
      rcases c with ⟨n, t1⟩
      have hpos := walkChildren_cons_length_pos d n t1 rest
      rcases hwc : walkChildren d ((n, t1) :: rest) with _ | ⟨hd2, tl2⟩
      · rw [hwc] at hpos; simp at hpos
      · rw [walk, hwc]
        simp

/-- C3 witness: the equivalence evaluated on a tree whose directory m holds
exactly a.json and b.pkl, and on the empty directory e. -/
theorem is_model_dir_iff_witness :
    is_model_dir
        (FSTree.node [("m", FSTree.node [] ["a.json", "b.pkl"]),
          ("e", FSTree.node [] [])] []) ["m"] = true ∧
    is_model_dir
        (FSTree.node [("m", FSTree.node [] ["a.json", "b.pkl"]),
          ("e", FSTree.node [] [])] []) ["e"] = true := by
  constructor
  · exact (is_model_dir_iff
      (FSTree.node [("m", FSTree.node [] ["a.json", "b.pkl"]),
        ("e", FSTree.node [] [])] []) ["m"]
      (FSTree.node [] ["a.json", "b.pkl"]) rfl).mpr ⟨rfl, by decide⟩
  · exact (is_model_dir_iff
      (FSTree.node [("m", FSTree.node [] ["a.json", "b.pkl"]),
        ("e", FSTree.node [] [])] []) ["e"]
      (FSTree.node [] []) rfl).mpr ⟨rfl, by decide⟩

/-- C2 (amended): on a path that does not exist, is_model_dir returns false
rather than failing: os.walk swallows the directory-listing failure and
yields no entries, so the length-one test fails. -/
theorem is_model_dir_missing_false (fs : FSTree) (p : List String)
    (h : lookupPath fs p = none) : is_model_dir fs p = false := by
  rw [is_model_dir]
  simp [h]

/-- C2 witness: the amended statement on a concrete missing path. -/
theorem is_model_dir_missing_false_witness :
    is_model_dir (FSTree.node [] []) ["missing"] = false :=
  is_model_dir_missing_false (FSTree.node [] []) ["missing"] rfl

/-- C2 counterexample: a non-existent path makes is_model_dir return false;
no filesystem error is surfaced, contradicting the claim that the
directory-listing failure propagates. -/
theorem is_model_dir_missing_counterexample :
    lookupPath (FSTree.node [] []) ["missing"] = none ∧
    is_model_dir (FSTree.node [] []) ["missing"] = false := by
  exact ⟨rfl, rfl⟩

theorem lookup_filter_ne (n : String) (ds : List (String × FSTree)) :
    (ds.filter fun c => c.1 != n).lookup n = none := by
  induction ds with
  | nil => rfl
  | cons c rest ih =>
    by_cases h : c.1 = n
    · simp [List.filter_cons, h, ih]
    · have hne : (c.1 != n) = true := by simpa using h
      simp only [List.filter_cons, hne, if_true]
      have : (n == c.1) = false := by
        simp only [beq_eq_false_iff_ne, ne_eq]
        exact fun hh => h hh.symm
      simp [List.lookup, this, ih]

theorem lookup_map_update (n : String) (ds : List (String × FSTree))
    (g : FSTree → FSTree) :
    (ds.map fun c => if c.1 = n then (c.1, g c.2) else c).lookup n =
      (ds.lookup n).map g := by
  induction ds with
  | nil => rfl
  | cons c rest ih =>
    by_cases h : c.1 = n
    · simp only [List.map_cons, if_pos h]
      have hbeq : (n == c.1) = true := by simp [h.symm]
      simp [List.lookup, hbeq]
    · simp only [List.map_cons, if_neg h]
      have hbeq : (n == c.1) = false := by
        simp only [beq_eq_false_iff_ne, ne_eq]
        exact fun hh => h hh.symm
      simp [List.lookup, hbeq, ih]

/-- After removePath, a non-empty path no longer resolves. -/
theorem lookupPath_removePath (fs : FSTree) (d : List String) (hd : d ≠ []) :
    lookupPath (removePath fs d) d = none := by
  induction d generalizing fs with
  | nil => exact absurd rfl hd
  | cons n rest ih =>
    cases rest with
    | nil =>
      cases fs with
      | node ds files =>
        rw [removePath, lookupPath]
        simp [FSTree.dirs, lookup_filter_ne]
    | cons m rest2 =>
      cases fs with
      | node ds files =>
        rw [removePath]
        · rw [lookupPath]
          simp only [FSTree.dirs]
          rw [lookup_map_update n ds (fun t => removePath t (m :: rest2))]
          rcases ds.lookup n with _ | child
          · rfl
          · show lookupPath (removePath child (m :: rest2)) (m :: rest2) = none
            exact ih child (List.cons_ne_nil m rest2)
        · exact List.cons_ne_nil m rest2

/-- C1: remove_model validates before deleting: when the directory fails
is_model_dir it returns the filesystem unchanged together with a ValueError
whose message names the path, deleting nothing; when the directory passes,
it deletes the directory recursively (the path no longer resolves) and
returns true. -/
theorem remove_model_spec (fs : FSTree) (d : List String) (hd : d ≠ []) :
    (is_model_dir fs d = false →
      remove_model fs d =
        (fs, Except.error ("Cannot remove " ++ pathToString d ++
          ", it seems it is not a model directory"))) ∧
    (is_model_dir fs d = true →
      remove_model fs d = (removePath fs d, Except.ok true) ∧
      lookupPath (remove_model fs d).1 d = none) := by
  constructor
  · intro h
    rw [remove_model, if_neg]
    simp [h]
  · intro h
    have heq : remove_model fs d = (removePath fs d, Except.ok true) := by
      rw [remove_model, if_pos]
      simp [h]
    refine ⟨heq, ?_⟩
    rw [heq]
    exact lookupPath_removePath fs d hd

/-- C1 witness: the two branches on a filesystem holding a model directory m
and a non-model directory x. -/
theorem remove_model_spec_witness :
    remove_model
        (FSTree.node [("m", FSTree.node [] ["a.json"]),
          ("x", FSTree.node [] ["b.txt"])] []) ["x"] =
      (FSTree.node [("m", FSTree.node [] ["a.json"]),
          ("x", FSTree.node [] ["b.txt"])] [],
        Except.error "Cannot remove x, it seems it is not a model directory") ∧
    lookupPath
      (remove_model
        (FSTree.node [("m", FSTree.node [] ["a.json"]),
          ("x", FSTree.node [] ["b.txt"])] []) ["m"]).1 ["m"] = none := by
  constructor
  · have h := (remove_model_spec
      (FSTree.node [("m", FSTree.node [] ["a.json"]),
        ("x", FSTree.node [] ["b.txt"])] []) ["x"] (by simp)).1
    have hfalse : is_model_dir
        (FSTree.node [("m", FSTree.node [] ["a.json"]),
          ("x", FSTree.node [] ["b.txt"])] []) ["x"] = false := by
      simp [is_model_dir, lookupPath, FSTree.dirs, List.lookup, walk_node_nil,
        splitext, rfindDot, allowed_extensions]
    exact h hfalse
  · have h := (remove_model_spec
      (FSTree.node [("m", FSTree.node [] ["a.json"]),
        ("x", FSTree.node [] ["b.txt"])] []) ["m"] (by simp)).2
    have htrue : is_model_dir
        (FSTree.node [("m", FSTree.node [] ["a.json"]),
          ("x", FSTree.node [] ["b.txt"])] []) ["m"] = true := by
      simp [is_model_dir, lookupPath, FSTree.dirs, List.lookup, walk_node_nil,
        splitext, rfindDot, allowed_extensions]
    exact (h htrue).2

/- ### JSON values and the entity record -/

/-- JSON-representable values as handled by the serialization helpers:
null, booleans, integers, strings, arrays and objects. -/
inductive JValue where
  | null
  | bool (b : Bool)
  | int (n : Int)
  | str (s : String)
  | arr (items : List JValue)
  | obj (entries : List (String × JValue))

/-- Modelled from the spec: the entity-attribute key constants imported from
rasa.nlu.constants and rasa.shared.nlu.constants, which are outside the
source file; the spec names the record keys start, end, value, type, role
and group. -/
def ENTITY_ATTRIBUTE_START : String := "start"

/-- Modelled from the spec: the end-offset key. -/
def ENTITY_ATTRIBUTE_END : String := "end"

/-- Modelled from the spec: the value key. -/
def ENTITY_ATTRIBUTE_VALUE : String := "value"

/-- Modelled from the spec: the entity-type key. -/
def ENTITY_ATTRIBUTE_TYPE : String := "type"

/-- Modelled from the spec: the role key. -/
def ENTITY_ATTRIBUTE_ROLE : String := "role"

/-- Modelled from the spec: the group key. -/
def ENTITY_ATTRIBUTE_GROUP : String := "group"

/-- Python dict assignment d[k] = v on a dictionary viewed as a lookup
function. -/
def dictInsert (m : String → Option JValue) (k : String) (v : JValue) :
    String → Option JValue :=
  fun q => if q = k then some v else m q

/-- Embedding of build_entity: the four standard keys, role and group added
only when truthy, then dict.update with the extra keyword fields in order. -/
def build_entity (start endPos : Int) (value : String) (entity_type : String)
    (role : Option String) (group : Option String)
    (kwargs : List (String × JValue)) : String → Option JValue :=
  let entity : String → Option JValue := fun k =>
    if k = ENTITY_ATTRIBUTE_START then some (JValue.int start)
    else if k = ENTITY_ATTRIBUTE_END then some (JValue.int endPos)
    else if k = ENTITY_ATTRIBUTE_VALUE then some (JValue.str value)
    else if k = ENTITY_ATTRIBUTE_TYPE then some (JValue.str entity_type)
    else none
  let entity1 :=
    match role with
    | some r => if r ≠ "" then dictInsert entity ENTITY_ATTRIBUTE_ROLE (JValue.str r) else entity
    | none => entity
  let entity2 :=
    match group with
    | some g => if g ≠ "" then dictInsert entity1 ENTITY_ATTRIBUTE_GROUP (JValue.str g) else entity1
    | none => entity1
  kwargs.foldl (fun m kv => dictInsert m kv.1 kv.2) entity2

/- ### Lemmas about build_entity -/

theorem lookup_append_jv (l1 l2 : List (String × JValue)) (k : String) :
    (l1 ++ l2).lookup k =
      match l1.lookup k with
      | some v => some v
      | none => l2.lookup k := by
  induction l1 with
  | nil => rfl
  | cons c rest ih =>
    rcases c with ⟨a, b⟩
    by_cases h : k = a
    · simp [List.lookup, h]
    · have hbeq : (k == a) = false := by simpa using h
      simp [List.lookup, hbeq, ih]

theorem foldl_dictInsert_lookup (m : String → Option JValue)
    (kwargs : List (String × JValue)) (k : String) :
    kwargs.foldl (fun acc kv => dictInsert acc kv.1 kv.2) m k =
      match kwargs.reverse.lookup k with
      | some v => some v
      | none => m k := by
  induction kwargs generalizing m with
  | nil => rfl
  | cons kv rest ih =>
    rcases kv with ⟨a, b⟩
    rw [List.foldl_cons, ih, List.reverse_cons, lookup_append_jv]
    rcases rest.reverse.lookup k with _ | v
    · by_cases h : k = a
      · simp [List.lookup, h, dictInsert]
      · have hbeq : (k == a) = false := by simpa using h
        simp [List.lookup, hbeq, dictInsert, h]
    · rfl

theorem lookup_eq_none_of_forall_not_mem (l : List (String × JValue)) (k : String)
    (h : ∀ v, (k, v) ∉ l) : l.lookup k = none := by
  induction l with
  | nil => rfl
  | cons c rest ih =>
    rcases c with ⟨a, b⟩
    by_cases hk : k = a
    · subst hk
      exact absurd (List.mem_cons_self (k, b) rest) (h b)
    · have hbeq : (k == a) = false := by simpa using hk
      simp only [List.lookup, hbeq]
      exact ih fun v hv => h v (List.mem_cons_of_mem (a, b) hv)

/-- C7: the role key is present exactly when the role argument is provided
and non-falsy, likewise the group key (whenever the extra fields do not
themselves name that key); the extra keyword fields are merged last, so an
extra field whose key collides with any standard key overwrites it, the
last occurrence winning. -/
theorem build_entity_spec (start endPos : Int) (value entity_type : String)
    (role group : Option String) (kwargs : List (String × JValue)) :
    ((∀ v, (ENTITY_ATTRIBUTE_ROLE, v) ∉ kwargs) →
      (build_entity start endPos value entity_type role group kwargs
          ENTITY_ATTRIBUTE_ROLE ≠ none ↔ ∃ r, role = some r ∧ r ≠ "")) ∧
    ((∀ v, (ENTITY_ATTRIBUTE_GROUP, v) ∉ kwargs) →
      (build_entity start endPos value entity_type role group kwargs
          ENTITY_ATTRIBUTE_GROUP ≠ none ↔ ∃ g, group = some g ∧ g ≠ "")) ∧
    (∀ k v, kwargs.reverse.lookup k = some v →
      build_entity start endPos value entity_type role group kwargs k = some v) := by
  refine ⟨?_, ?_, ?_⟩
  · intro hnotin
    have hnone : kwargs.reverse.lookup ENTITY_ATTRIBUTE_ROLE = none :=
      lookup_eq_none_of_forall_not_mem _ _
        (fun v hv => hnotin v (List.mem_reverse.mp hv))
    simp only [build_entity]
    rw [foldl_dictInsert_lookup, hnone]
    rcases group with _ | g
    · rcases role with _ | r
      · simp [ENTITY_ATTRIBUTE_ROLE, ENTITY_ATTRIBUTE_START, ENTITY_ATTRIBUTE_END,
          ENTITY_ATTRIBUTE_VALUE, ENTITY_ATTRIBUTE_TYPE]
      · by_cases hr : r = ""
        · subst hr
          simp [ENTITY_ATTRIBUTE_ROLE, ENTITY_ATTRIBUTE_START, ENTITY_ATTRIBUTE_END,
            ENTITY_ATTRIBUTE_VALUE, ENTITY_ATTRIBUTE_TYPE]
        · simp [hr, dictInsert, ENTITY_ATTRIBUTE_ROLE]
    · by_cases hg : g = ""
      · subst hg
        rcases role with _ | r
        · simp [ENTITY_ATTRIBUTE_ROLE, ENTITY_ATTRIBUTE_START, ENTITY_ATTRIBUTE_END,
            ENTITY_ATTRIBUTE_VALUE, ENTITY_ATTRIBUTE_TYPE]
        · by_cases hr : r = ""
          · subst hr
            simp [ENTITY_ATTRIBUTE_ROLE, ENTITY_ATTRIBUTE_START, ENTITY_ATTRIBUTE_END,
              ENTITY_ATTRIBUTE_VALUE, ENTITY_ATTRIBUTE_TYPE]
          · simp [hr, dictInsert, ENTITY_ATTRIBUTE_ROLE]
      · rcases role with _ | r
        · simp [hg, dictInsert, ENTITY_ATTRIBUTE_ROLE, ENTITY_ATTRIBUTE_GROUP,
            ENTITY_ATTRIBUTE_START, ENTITY_ATTRIBUTE_END, ENTITY_ATTRIBUTE_VALUE,
            ENTITY_ATTRIBUTE_TYPE]
        · by_cases hr : r = ""
          · subst hr
            simp [hg, dictInsert, ENTITY_ATTRIBUTE_ROLE, ENTITY_ATTRIBUTE_GROUP,
              ENTITY_ATTRIBUTE_START, ENTITY_ATTRIBUTE_END, ENTITY_ATTRIBUTE_VALUE,
              ENTITY_ATTRIBUTE_TYPE]
          · simp [hg, hr, dictInsert, ENTITY_ATTRIBUTE_ROLE, ENTITY_ATTRIBUTE_GROUP]
  · intro hnotin
    have hnone : kwargs.reverse.lookup ENTITY_ATTRIBUTE_GROUP = none :=
      lookup_eq_none_of_forall_not_mem _ _
        (fun v hv => hnotin v (List.mem_reverse.mp hv))
    simp only [build_entity]
    rw [foldl_dictInsert_lookup, hnone]
    rcases group with _ | g
    · rcases role with _ | r
      · simp [ENTITY_ATTRIBUTE_GROUP, ENTITY_ATTRIBUTE_START, ENTITY_ATTRIBUTE_END,
          ENTITY_ATTRIBUTE_VALUE, ENTITY_ATTRIBUTE_TYPE]
      · by_cases hr : r = ""
        · subst hr
          simp [ENTITY_ATTRIBUTE_GROUP, ENTITY_ATTRIBUTE_START, ENTITY_ATTRIBUTE_END,
            ENTITY_ATTRIBUTE_VALUE, ENTITY_ATTRIBUTE_TYPE]
        · simp [hr, dictInsert, ENTITY_ATTRIBUTE_GROUP, ENTITY_ATTRIBUTE_ROLE,
            ENTITY_ATTRIBUTE_START, ENTITY_ATTRIBUTE_END, ENTITY_ATTRIBUTE_VALUE,
            ENTITY_ATTRIBUTE_TYPE]
    · by_cases hg : g = ""
      · subst hg
        rcases role with _ | r
        · simp [ENTITY_ATTRIBUTE_GROUP, ENTITY_ATTRIBUTE_START, ENTITY_ATTRIBUTE_END,
            ENTITY_ATTRIBUTE_VALUE, ENTITY_ATTRIBUTE_TYPE]
        · by_cases hr : r = ""
          · subst hr
            simp [ENTITY_ATTRIBUTE_GROUP, ENTITY_ATTRIBUTE_START, ENTITY_ATTRIBUTE_END,
              ENTITY_ATTRIBUTE_VALUE, ENTITY_ATTRIBUTE_TYPE]
          · simp [hr, dictInsert, ENTITY_ATTRIBUTE_GROUP, ENTITY_ATTRIBUTE_ROLE,
              ENTITY_ATTRIBUTE_START, ENTITY_ATTRIBUTE_END, ENTITY_ATTRIBUTE_VALUE,
              ENTITY_ATTRIBUTE_TYPE]
      · simp [hg, dictInsert, ENTITY_ATTRIBUTE_GROUP]
  · intro k v hkv
    simp only [build_entity]
    rw [foldl_dictInsert_lookup, hkv]

/-- C7 witness: the spec example with no role or group and no extras, a call
with a non-empty role, and an extra field overwriting the type key. -/
theorem build_entity_spec_witness :
    (build_entity 0 5 "Berlin" "city" Option.none Option.none []
        ENTITY_ATTRIBUTE_ROLE ≠ none ↔
      ∃ r, (Option.none : Option String) = some r ∧ r ≠ "") ∧
    (build_entity 0 5 "Berlin" "city" (some "location") Option.none []
        ENTITY_ATTRIBUTE_ROLE ≠ none ↔
      ∃ r, (some "location" : Option String) = some r ∧ r ≠ "") ∧
    build_entity 0 5 "Berlin" "city" Option.none Option.none
        [(ENTITY_ATTRIBUTE_TYPE, JValue.str "town")] ENTITY_ATTRIBUTE_TYPE =
      some (JValue.str "town") :=
  ⟨(build_entity_spec 0 5 "Berlin" "city" Option.none Option.none []).1
      (by simp),
    (build_entity_spec 0 5 "Berlin" "city" (some "location") Option.none []).1
      (by simp),
    (build_entity_spec 0 5 "Berlin" "city" Option.none Option.none
        [(ENTITY_ATTRIBUTE_TYPE, JValue.str "town")]).2.2
      ENTITY_ATTRIBUTE_TYPE (JValue.str "town") rfl⟩

/- ### json_to_string: the underlying serializer and option plumbing -/

/-- Lowercase hexadecimal digit for a value below 16. -/
def hexDigit (n : Nat) : Char :=
  if n < 10 then Char.ofNat (48 + n) else Char.ofNat (87 + n)

/-- Four lowercase hexadecimal digits of a value below 0x10000. -/
def hex4 (n : Nat) : List Char :=
  [hexDigit (n / 4096 % 16), hexDigit (n / 256 % 16), hexDigit (n / 16 % 16),
    hexDigit (n % 16)]

/-- Model of json.dumps string escaping: the quote, the backslash and every
control character are always escaped (short forms for backspace, tab,
newline, form feed, carriage return; u-escapes otherwise); with ensure_ascii
also every character outside printable ASCII, non-BMP ones as a surrogate
pair. -/
def escChar (ensure_ascii : Bool) (c : Char) : List Char :=
  if c = '"' then [backslashChar, '"']
  else if c = backslashChar then [backslashChar, backslashChar]
  else if c = Char.ofNat 8 then [backslashChar, 'b']
  else if c = Char.ofNat 9 then [backslashChar, 't']
  else if c = Char.ofNat 10 then [backslashChar, 'n']
  else if c = Char.ofNat 12 then [backslashChar, 'f']
  else if c = Char.ofNat 13 then [backslashChar, 'r']
  else if c.toNat < 32 then backslashChar :: 'u' :: hex4 c.toNat
  else if ensure_ascii && decide (126 < c.toNat) then
    if c.toNat < 65536 then backslashChar :: 'u' :: hex4 c.toNat
    else
      (backslashChar :: 'u' :: hex4 (55296 + (c.toNat - 65536) / 1024)) ++
        (backslashChar :: 'u' :: hex4 (56320 + (c.toNat - 65536) % 1024))
  else [c]

/-- A serialized JSON string literal. -/
def serStr (ea : Bool) (s : List Char) : List Char :=
  '"' :: (s.flatMap (escChar ea) ++ ['"'])

/-- Decimal digit character. -/
def digitChar (n : Nat) : Char := Char.ofNat (48 + n)

/-- Decimal digits of a natural number below the fuel bound (the bound keeps
the recursion structural; natDigits instantiates it large enough). -/
def natDigitsF : Nat → Nat → List Char
  | 0, _ => []
  | fuel + 1, n =>
    if n < 10 then [digitChar n]
    else natDigitsF fuel (n / 10) ++ [digitChar (n % 10)]

/-- Decimal representation of a natural number. -/
def natDigits (n : Nat) : List Char := natDigitsF (n + 1) n

/-- Decimal representation of an integer, as int repr produces. -/
def intRepr : Int → List Char
  | Int.ofNat n => natDigits n
  | Int.negSucc m => '-' :: natDigits (m + 1)

/-- Newline plus indentation emitted before an item at the given nesting
level; nothing in the compact (indent None) layout. -/
def nlInd (ind : Option Nat) (lvl : Nat) : List Char :=
  match ind with
  | some n => '\n' :: List.replicate (n * lvl) ' '
  | none => []

/-- The item separator: a bare comma when indenting (the newline follows),
comma-space in the compact layout. -/
def itemSep (ind : Option Nat) : List Char :=
  match ind with
  | some _ => [',']
  | none => [',', ' ']

mutual

/-- Serialization of one JSON value at a nesting level, following the
json.dumps layout for an integer indent or the compact default. -/
def serVal (ea : Bool) (ind : Option Nat) (lvl : Nat) : JValue → List Char
  | JValue.null => ['n', 'u', 'l', 'l']
  | JValue.bool true => ['t', 'r', 'u', 'e']
  | JValue.bool false => ['f', 'a', 'l', 's', 'e']
  | JValue.int n => intRepr n
  | JValue.str s => serStr ea s.data
  | JValue.arr [] => ['[', ']']
  | JValue.arr (x :: xs) =>
      '[' :: (nlInd ind (lvl + 1) ++ serVal ea ind (lvl + 1) x ++
        serItems ea ind (lvl + 1) xs ++ nlInd ind lvl ++ [']'])
  | JValue.obj [] => ['{', '}']
  | JValue.obj (e :: es) =>
      '{' :: (nlInd ind (lvl + 1) ++ serEntry ea ind (lvl + 1) e ++
        serEntries ea ind (lvl + 1) es ++ nlInd ind lvl ++ ['}'])

/-- The remaining array items, each preceded by the separator. -/
def serItems (ea : Bool) (ind : Option Nat) (lvl : Nat) : List JValue → List Char
  | [] => []
  | x :: xs =>
      itemSep ind ++ nlInd ind lvl ++ serVal ea ind lvl x ++ serItems ea ind lvl xs

/-- One object member: serialized key, colon-space, serialized value. -/
def serEntry (ea : Bool) (ind : Option Nat) (lvl : Nat) : String × JValue → List Char
  | (k, v) => serStr ea k.data ++ [':', ' '] ++ serVal ea ind lvl v

/-- The remaining object members, each preceded by the separator. -/
def serEntries (ea : Bool) (ind : Option Nat) (lvl : Nat) :
    List (String × JValue) → List Char
  | [] => []
  | e :: es =>
      itemSep ind ++ nlInd ind lvl ++ serEntry ea ind lvl e ++ serEntries ea ind lvl es

end

/-- Model of json.dumps restricted to the two options json_to_string
manages: an integer indent (or None for the compact layout) and the
ensure_ascii flag. -/
def dumps (obj : JValue) (ind : Option Nat) (ensure_ascii : Bool) : String :=
  String.mk (serVal ensure_ascii ind 0 obj)

/-- Values a caller can pass as keyword options. -/
inductive PyVal where
  | int (n : Int)
  | bool (b : Bool)
  | str (s : String)
  | none

/-- Python truthiness of a keyword value. -/
def pyTruthy : PyVal → Bool
  | PyVal.int n => decide (n ≠ 0)
  | PyVal.bool b => b
  | PyVal.str s => decide (s ≠ "")
  | PyVal.none => false

/-- Interpretation of the indent option: an integer gives that many spaces
(CPython floors negative values at zero), anything else the compact layout. -/
def indentArg : PyVal → Option Nat
  | PyVal.int n => some n.toNat
  | _ => Option.none

/-- dict.pop(key, default): the value stored under the key or the default,
together with the dictionary without that key. -/
def popKw (key : String) (dflt : PyVal) (kwargs : List (String × PyVal)) :
    PyVal × List (String × PyVal) :=
  ((kwargs.lookup key).getD dflt, kwargs.filter fun e => e.1 != key)

/-- The argument record json_to_string hands to json.dumps. -/
structure DumpsArgs where
  obj : JValue
  indent : PyVal
  ensure_ascii : PyVal
  kwargs : List (String × PyVal)

/-- Embedding of json_to_string: pop indent (default 2) and ensure_ascii
(default False) out of the keyword options, then call json.dumps with them
and the remaining options. -/
def json_to_string (obj : JValue) (kwargs : List (String × PyVal)) : DumpsArgs :=
  let p1 := popKw "indent" (PyVal.int 2) kwargs
  let p2 := popKw "ensure_ascii" (PyVal.bool false) p1.2
  ⟨obj, p1.1, p2.1, p2.2⟩

/-- The text of the dumps call described by the record (the forwarded
remaining options do not affect the two modelled settings). -/
def DumpsArgs.run (a : DumpsArgs) : String :=
  dumps a.obj (indentArg a.indent) (pyTruthy a.ensure_ascii)

/- ### Lemmas about json_to_string -/

theorem lookup_filter_self_py (k : String) (l : List (String × PyVal)) :
    (l.filter fun e => e.1 != k).lookup k = Option.none := by
  induction l with
  | nil => rfl
  | cons c rest ih =>
    by_cases h : c.1 = k
    · simp [List.filter_cons, h, ih]
    · have hne : (c.1 != k) = true := by simpa using h
      simp only [List.filter_cons, hne, if_true]
      have hbeq : (k == c.1) = false := by
        simp only [beq_eq_false_iff_ne, ne_eq]
        exact fun hh => h hh.symm
      simp [List.lookup, hbeq, ih]

theorem lookup_filter_other_py (k key : String) (hne : k ≠ key)
    (l : List (String × PyVal)) :
    (l.filter fun e => e.1 != key).lookup k = l.lookup k := by
  induction l with
  | nil => rfl
  | cons c rest ih =>
    by_cases h : c.1 = key
    · have hbeq : (k == c.1) = false := by
        simp only [beq_eq_false_iff_ne, ne_eq]
        exact fun hh => hne (hh.trans h)
      have hflt : (c.1 != key) = false := by simpa using h
      rcases c with ⟨a, b⟩
      simp only [List.filter_cons, hflt, Bool.false_eq_true, if_false, ih]
      simp [List.lookup, hbeq]
    · have hflt : (c.1 != key) = true := by simpa using h
      rcases c with ⟨a, b⟩
      simp only [List.filter_cons, hflt, if_true]
      by_cases hk : k = a
      · simp [List.lookup, hk]
      · have hbeq : (k == a) = false := by simpa using hk
        simp [List.lookup, hbeq, ih]

/-- C8: json_to_string serializes with 2-space indentation and literal
non-ASCII by default; caller-supplied indent or ensure_ascii keys override
the defaults; both keys are removed from the forwarded options while every
other option is passed through unchanged; the default call runs json.dumps
with indent 2 and ensure_ascii False. -/
theorem json_to_string_spec (obj : JValue) (kwargs : List (String × PyVal)) :
    (kwargs.lookup "indent" = Option.none →
      (json_to_string obj kwargs).indent = PyVal.int 2) ∧
    (kwargs.lookup "ensure_ascii" = Option.none →
      (json_to_string obj kwargs).ensure_ascii = PyVal.bool false) ∧
    (∀ v, kwargs.lookup "indent" = some v →
      (json_to_string obj kwargs).indent = v) ∧
    (∀ v, kwargs.lookup "ensure_ascii" = some v →
      (json_to_string obj kwargs).ensure_ascii = v) ∧
    (json_to_string obj kwargs).kwargs.lookup "indent" = Option.none ∧
    (json_to_string obj kwargs).kwargs.lookup "ensure_ascii" = Option.none ∧
    (∀ k, k ≠ "indent" → k ≠ "ensure_ascii" →
      (json_to_string obj kwargs).kwargs.lookup k = kwargs.lookup k) ∧
    (json_to_string obj []).run = dumps obj (some 2) false := by
  have hea : ((kwargs.filter fun e => e.1 != "indent").lookup "ensure_ascii") =
      kwargs.lookup "ensure_ascii" :=
    lookup_filter_other_py "ensure_ascii" "indent" (by decide) kwargs
  refine ⟨?_, ?_, ?_, ?_, ?_, ?_, ?_, rfl⟩
  · intro h
    simp [json_to_string, popKw, h]
  · intro h
    simp [json_to_string, popKw, hea, h]
  · intro v h
    simp [json_to_string, popKw, h]
  · intro v h
    simp [json_to_string, popKw, hea, h]
  · show ((kwargs.filter fun e => e.1 != "indent").filter
      fun e => e.1 != "ensure_ascii").lookup "indent" = Option.none
    rw [lookup_filter_other_py "indent" "ensure_ascii" (by decide)]
    exact lookup_filter_self_py "indent" kwargs
  · exact lookup_filter_self_py "ensure_ascii" _
  · intro k h1 h2
    show ((kwargs.filter fun e => e.1 != "indent").filter
      fun e => e.1 != "ensure_ascii").lookup k = kwargs.lookup k
    rw [lookup_filter_other_py k "ensure_ascii" h2,
      lookup_filter_other_py k "indent" h1]

/-- C8 witness: defaults on an empty option set, an override of indent, and
the preservation of an unrelated option. -/
theorem json_to_string_spec_witness :
    (json_to_string JValue.null []).indent = PyVal.int 2 ∧
    (json_to_string JValue.null
        [("indent", PyVal.int 4), ("sort_keys", PyVal.bool true)]).indent = PyVal.int 4 ∧
    (json_to_string JValue.null
        [("indent", PyVal.int 4), ("sort_keys", PyVal.bool true)]).kwargs.lookup
        "sort_keys" =
      ([("indent", PyVal.int 4), ("sort_keys", PyVal.bool true)] :
        List (String × PyVal)).lookup "sort_keys" :=
  ⟨(json_to_string_spec JValue.null []).1 rfl,
    (json_to_string_spec JValue.null
        [("indent", PyVal.int 4), ("sort_keys", PyVal.bool true)]).2.2.1
      (PyVal.int 4) rfl,
    (json_to_string_spec JValue.null
        [("indent", PyVal.int 4), ("sort_keys", PyVal.bool true)]).2.2.2.2.2.2.1
      "sort_keys" (by decide) (by decide)⟩

/- ### json.loads: the parser -/

/-- The whitespace characters json.loads skips: space, tab, newline,
carriage return. -/
def isJsonWs (c : Char) : Bool :=
  c = ' ' || c = Char.ofNat 9 || c = Char.ofNat 10 || c = Char.ofNat 13

/-- Skip insignificant whitespace. -/
def skipWs (cs : List Char) : List Char := cs.dropWhile isJsonWs

/-- Value of one hexadecimal digit. -/
def hexVal (c : Char) : Option Nat :=
  if 48 ≤ c.toNat ∧ c.toNat ≤ 57 then some (c.toNat - 48)
  else if 97 ≤ c.toNat ∧ c.toNat ≤ 102 then some (c.toNat - 87)
  else if 65 ≤ c.toNat ∧ c.toNat ≤ 70 then some (c.toNat - 55)
  else none

/-- Body of a JSON string literal after the opening quote: content up to the
closing quote, strict about raw control characters; u-escapes are decoded
when they denote a scalar value (surrogate halves are outside the model). -/
def parseStrBody : List Char → Option (List Char × List Char)
  | [] => none
  | c :: rest =>
    if c = '"' then some ([], rest)
    else if c = backslashChar then
      match rest with
      | [] => none
      | c2 :: r =>
        if c2 = '"' then (parseStrBody r).map fun p => ('"' :: p.1, p.2)
        else if c2 = backslashChar then
          (parseStrBody r).map fun p => (backslashChar :: p.1, p.2)
        else if c2 = '/' then (parseStrBody r).map fun p => ('/' :: p.1, p.2)
        else if c2 = 'b' then (parseStrBody r).map fun p => (Char.ofNat 8 :: p.1, p.2)
        else if c2 = 'f' then (parseStrBody r).map fun p => (Char.ofNat 12 :: p.1, p.2)
        else if c2 = 'n' then (parseStrBody r).map fun p => (Char.ofNat 10 :: p.1, p.2)
        else if c2 = 'r' then (parseStrBody r).map fun p => (Char.ofNat 13 :: p.1, p.2)
        else if c2 = 't' then (parseStrBody r).map fun p => (Char.ofNat 9 :: p.1, p.2)
        else if c2 = 'u' then
          match r with
          | h1 :: h2 :: h3 :: h4 :: r2 =>
            match hexVal h1, hexVal h2, hexVal h3, hexVal h4 with
            | some d1, some d2, some d3, some d4 =>
              let n := ((d1 * 16 + d2) * 16 + d3) * 16 + d4
              if n < 55296 ∨ 57344 ≤ n then
                (parseStrBody r2).map fun p => (Char.ofNat n :: p.1, p.2)
              else none
            | _, _, _, _ => none
          | _ => none
        else none
    else if c.toNat < 32 then none
    else (parseStrBody rest).map fun p => (c :: p.1, p.2)

/-- Numeric value of a digit sequence. -/
def digitsToNat (ds : List Char) : Nat :=
  ds.foldl (fun a c => a * 10 + (c.toNat - 48)) 0

/-- Reject the continuation of a number into an (unmodelled) float, then
return the integer token. -/
def checkNoFloat : List Char → Nat → Option (Nat × List Char)
  | [], n => some (n, [])
  | c :: cs, n =>
    if c = '.' ∨ c = 'e' ∨ c = 'E' then none else some (n, c :: cs)

/-- An unsigned JSON integer token: a bare zero, or a nonzero leading digit
followed by more digits, as the number grammar of json.loads admits. -/
def parseIntToken : List Char → Option (Nat × List Char)
  | [] => none
  | c :: cs =>
    if c = '0' then checkNoFloat cs 0
    else if c.isDigit then
      checkNoFloat ((c :: cs).dropWhile Char.isDigit)
        (digitsToNat ((c :: cs).takeWhile Char.isDigit))
    else none

mutual

/-- Fueled recursive-descent value parser of json.loads. -/
def parseValue : Nat → List Char → Option (JValue × List Char)
  | 0, _ => none
  | fuel + 1, cs =>
    match skipWs cs with
    | [] => none
    | c :: r =>
      if c = 'n' then
        match r with
        | 'u' :: 'l' :: 'l' :: r2 => some (JValue.null, r2)
        | _ => none
      else if c = 't' then
        match r with
        | 'r' :: 'u' :: 'e' :: r2 => some (JValue.bool true, r2)
        | _ => none
      else if c = 'f' then
        match r with
        | 'a' :: 'l' :: 's' :: 'e' :: r2 => some (JValue.bool false, r2)
        | _ => none
      else if c = '"' then
        (parseStrBody r).map fun p => (JValue.str (String.mk p.1), p.2)
      else if c = '[' then
        match skipWs r with
        | [] => none
        | c2 :: r2 =>
          if c2 = ']' then some (JValue.arr [], r2)
          else
            match parseValue fuel (c2 :: r2) with
            | some (v, r3) =>
              (parseArrTail fuel r3).map fun p => (JValue.arr (v :: p.1), p.2)
            | none => none
      else if c = '{' then
        match skipWs r with
        | [] => none
        | c2 :: r2 =>
          if c2 = '}' then some (JValue.obj [], r2)
          else if c2 = '"' then
            match parseStrBody r2 with
            | some (k, r3) =>
              (match skipWs r3 with
               | ':' :: r4 =>
                 match parseValue fuel r4 with
                 | some (v, r5) =>
                   (parseObjTail fuel r5).map fun p =>
                     (JValue.obj ((String.mk k, v) :: p.1), p.2)
                 | none => none
               | _ => none)
            | none => none
          else none
      else if c = '-' then
        (parseIntToken r).map fun p => (JValue.int (-(p.1 : Int)), p.2)
      else if c.isDigit then
        (parseIntToken (c :: r)).map fun p => (JValue.int (p.1 : Int), p.2)
      else none

/-- The items of an array after the first one: a closing bracket or comma
then a value, repeatedly. -/
def parseArrTail : Nat → List Char → Option (List JValue × List Char)
  | 0, _ => none
  | fuel + 1, cs =>
    match skipWs cs with
    | [] => none
    | c :: r =>
      if c = ']' then some ([], r)
      else if c = ',' then
        match parseValue fuel r with
        | some (v, r2) => (parseArrTail fuel r2).map fun p => (v :: p.1, p.2)
        | none => none
      else none

/-- The members of an object after the first one. -/
def parseObjTail : Nat → List Char → Option (List (String × JValue) × List Char)
  | 0, _ => none
  | fuel + 1, cs =>
    match skipWs cs with
    | [] => none
    | c :: r =>
      if c = '}' then some ([], r)
      else if c = ',' then
        match skipWs r with
        | [] => none
        | c2 :: r2 =>
          if c2 = '"' then
            match parseStrBody r2 with
            | some (k, r3) =>
              (match skipWs r3 with
               | ':' :: r4 =>
                 match parseValue fuel r4 with
                 | some (v, r5) =>
                   (parseObjTail fuel r5).map fun p =>
                     ((String.mk k, v) :: p.1, p.2)
                 | none => none
               | _ => none)
            | none => none
          else none
      else none

end

/-- Embedding of json.loads: parse one value, demand only whitespace after
it. -/
def loads (s : String) : Option JValue :=
  match parseValue (s.data.length + 1) s.data with
  | some (v, rest) => if skipWs rest = [] then some v else none
  | none => none

/- ### Round-trip lemmas: tokens -/

theorem hexVal_hexDigit : ∀ d < 16, hexVal (hexDigit d) = some d := by decide

theorem digitChar_isDigit : ∀ d < 10, (digitChar d).isDigit = true := by decide

theorem digitChar_ne_zero : ∀ d < 10, 0 < d → digitChar d ≠ '0' := by decide

theorem digitChar_toNat : ∀ d < 10, (digitChar d).toNat = 48 + d := by decide

theorem natDigitsF_stable : ∀ fuel n, n < fuel → ∀ k,
    natDigitsF (fuel + k) n = natDigitsF fuel n := by
  intro fuel
  induction fuel with
  | zero => intro n h; omega
  | succ fuel ih =>
    intro n h k
    cases k with
    | zero => rfl
    | succ k =>
      have hform : fuel + 1 + (k + 1) = (fuel + (k + 1)) + 1 := by omega
      rw [hform]
      by_cases h10 : n < 10
      · rw [natDigitsF, if_pos h10, natDigitsF, if_pos h10]
      · rw [natDigitsF, if_neg h10, natDigitsF, if_neg h10]
        have hx : n / 10 < n := Nat.div_lt_self (by omega) (by omega)
        have hlt : n / 10 < fuel := by omega
        rw [ih (n / 10) hlt (k + 1)]

theorem natDigits_unfold (n : Nat) :
    natDigits n =
      if n < 10 then [digitChar n]
      else natDigits (n / 10) ++ [digitChar (n % 10)] := by
  show natDigitsF (n + 1) n = _
  by_cases h : n < 10
  · rw [natDigitsF, if_pos h, if_pos h]
  · rw [natDigitsF, if_neg h, if_neg h]
    have hx : n / 10 < n := Nat.div_lt_self (by omega) (by omega)
    have hsplit : n = (n / 10 + 1) + (n - n / 10 - 1) := by omega
    show natDigitsF n (n / 10) ++ _ = natDigitsF (n / 10 + 1) (n / 10) ++ _
    nth_rewrite 1 [hsplit]
    rw [natDigitsF_stable (n / 10 + 1) (n / 10) (by omega) (n - n / 10 - 1)]

theorem natDigits_all_digits (n : Nat) : ∀ c ∈ natDigits n, c.isDigit = true := by
  induction n using Nat.strong_induction_on with
  | _ n ih =>
    rw [natDigits_unfold]
    by_cases h : n < 10
    · rw [if_pos h]
      intro c hc
      rcases List.mem_singleton.mp hc with rfl
      exact digitChar_isDigit n h
    · rw [if_neg h]
      intro c hc
      rcases List.mem_append.mp hc with hm | hm
      · exact ih (n / 10) (Nat.div_lt_self (by omega) (by omega)) c hm
      · rcases List.mem_singleton.mp hm with rfl
        exact digitChar_isDigit _ (Nat.mod_lt _ (by omega))

theorem natDigits_head (n : Nat) (hpos : 0 < n) :
    ∃ c cs, natDigits n = c :: cs ∧ c.isDigit = true ∧ c ≠ '0' := by
  induction n using Nat.strong_induction_on with
  | _ n ih =>
    rw [natDigits_unfold]
    by_cases h : n < 10
    · rw [if_pos h]
      exact ⟨digitChar n, [], rfl, digitChar_isDigit n h, digitChar_ne_zero n h hpos⟩
    · rw [if_neg h]
      obtain ⟨c, cs, heq, hd, hz⟩ :=
        ih (n / 10) (Nat.div_lt_self (by omega) (by omega))
          (Nat.div_pos (by omega) (by omega))
      exact ⟨c, cs ++ [digitChar (n % 10)], by rw [heq]; rfl, hd, hz⟩

theorem digitsToNat_append_digit (ds : List Char) (c : Char) :
    digitsToNat (ds ++ [c]) = digitsToNat ds * 10 + (c.toNat - 48) := by
  simp [digitsToNat, List.foldl_append]

theorem digitsToNat_natDigits (n : Nat) : digitsToNat (natDigits n) = n := by
  induction n using Nat.strong_induction_on with
  | _ n ih =>
    rw [natDigits_unfold]
    by_cases h : n < 10
    · rw [if_pos h]
      have := digitChar_toNat n h
      simp [digitsToNat, this]
    · rw [if_neg h, digitsToNat_append_digit,
        ih (n / 10) (Nat.div_lt_self (by omega) (by omega))]
      have := digitChar_toNat (n % 10) (Nat.mod_lt _ (by omega))
      rw [this]
      omega

theorem takeWhile_append_stop (p : Char → Bool) (xs ys : List Char)
    (hall : ∀ c ∈ xs, p c = true)
    (hstop : ∀ c, ys.head? = some c → p c = false) :
    (xs ++ ys).takeWhile p = xs ∧ (xs ++ ys).dropWhile p = ys := by
  induction xs with
  | nil =>
    cases ys with
    | nil => exact ⟨rfl, rfl⟩
    | cons c t =>
      have := hstop c rfl
      simp [List.takeWhile_cons, List.dropWhile_cons, this]
  | cons x xs ih =>
    have hx := hall x (List.mem_cons_self x xs)
    have := ih (fun c hc => hall c (List.mem_cons_of_mem x hc))
    simp [List.takeWhile_cons, List.dropWhile_cons, hx, this.1, this.2]

/-- The boundary condition under which an integer token is parsed back
unchanged: the remaining input cannot extend the number. -/
def numBoundary (rest : List Char) : Prop :=
  ∀ c, rest.head? = some c → (c.isDigit = false ∧ c ≠ '.' ∧ c ≠ 'e' ∧ c ≠ 'E')

theorem checkNoFloat_boundary (rest : List Char) (n : Nat) (hb : numBoundary rest) :
    checkNoFloat rest n = some (n, rest) := by
  cases rest with
  | nil => rfl
  | cons c t =>
    obtain ⟨h1, h2, h3, h4⟩ := hb c rfl
    rw [checkNoFloat, if_neg]
    rintro (h | h | h)
    · exact h2 h
    · exact h3 h
    · exact h4 h

theorem parseIntToken_natDigits (n : Nat) (rest : List Char) (hb : numBoundary rest) :
    parseIntToken (natDigits n ++ rest) = some (n, rest) := by
  rcases Nat.eq_zero_or_pos n with rfl | hpos
  · have h0 : natDigits 0 = ['0'] := rfl
    rw [h0]
    show parseIntToken ('0' :: rest) = some (0, rest)
    rw [parseIntToken, if_pos rfl]
    exact checkNoFloat_boundary rest 0 hb
  · obtain ⟨c, cs, heq, hdig, hne0⟩ := natDigits_head n hpos
    have hsplit := takeWhile_append_stop Char.isDigit (c :: cs) rest
      (by rw [← heq]; exact natDigits_all_digits n) (fun d hd => (hb d hd).1)
    rw [heq, List.cons_append, parseIntToken, if_neg hne0, if_pos hdig,
      ← List.cons_append, hsplit.1, hsplit.2, ← heq, digitsToNat_natDigits]
    exact checkNoFloat_boundary rest n hb

theorem parseStrBody_round (s rest : List Char) :
    parseStrBody (s.flatMap (escChar false) ++ ('"' :: rest)) = some (s, rest) := by
  induction s with
  | nil =>
    show parseStrBody ('"' :: rest) = some ([], rest)
    rw [parseStrBody.eq_def]
    simp
  | cons c cs ih =>
    rw [List.flatMap_cons, List.append_assoc]
    by_cases h1 : c = '"'
    · subst h1; simp [escChar, ih, backslashChar]; rw [parseStrBody.eq_def]; simp [ih, backslashChar]
    · by_cases h2 : c = backslashChar
      · subst h2; simp [escChar, ih, backslashChar]; rw [parseStrBody.eq_def]; simp [ih, backslashChar]
      · by_cases h3 : c = Char.ofNat 8
        · subst h3; simp [escChar, ih, backslashChar]; rw [parseStrBody.eq_def]; simp [ih, backslashChar]
        · by_cases h4 : c = Char.ofNat 9
          · subst h4; simp [escChar, ih, backslashChar]; rw [parseStrBody.eq_def]; simp [ih, backslashChar]
          · by_cases h5 : c = Char.ofNat 10
            · subst h5; simp [escChar, ih, backslashChar]; rw [parseStrBody.eq_def]; simp [ih, backslashChar]
            · by_cases h6 : c = Char.ofNat 12
              · subst h6; simp [escChar, ih, backslashChar]; rw [parseStrBody.eq_def]; simp [ih, backslashChar]
              · by_cases h7 : c = Char.ofNat 13
                · subst h7; simp [escChar, ih, backslashChar]; rw [parseStrBody.eq_def]; simp [ih, backslashChar]
                · by_cases h8 : c.toNat < 32
                  · have hesc : escChar false c =
                        backslashChar :: 'u' :: hex4 c.toNat := by
                      rw [escChar, if_neg h1, if_neg h2, if_neg h3, if_neg h4,
                        if_neg h5, if_neg h6, if_neg h7, if_pos h8]
                    have ha := hexVal_hexDigit (c.toNat / 4096 % 16) (by omega)
                    have hb := hexVal_hexDigit (c.toNat / 256 % 16) (by omega)
                    have hc := hexVal_hexDigit (c.toNat / 16 % 16) (by omega)
                    have hd := hexVal_hexDigit (c.toNat % 16) (by omega)
                    rw [hesc, hex4]
                    simp only [List.cons_append, List.nil_append]
                    rw [parseStrBody.eq_def]
                    have hn : ((c.toNat / 4096 % 16 * 16 + c.toNat / 256 % 16) * 16 +
                        c.toNat / 16 % 16) * 16 + c.toNat % 16 = c.toNat := by omega
                    have hlt : c.toNat < 55296 := by omega
                    simp [ha, hb, hc, hd, ih, hn, hlt, backslashChar, Char.ofNat_toNat]
                  · have hesc : escChar false c = [c] := by
                      rw [escChar, if_neg h1, if_neg h2, if_neg h3, if_neg h4,
                        if_neg h5, if_neg h6, if_neg h7, if_neg h8]
                      simp
                    rw [hesc, List.singleton_append, parseStrBody.eq_def]
                    simp only []
                    rw [if_neg h1, if_neg h2, if_neg h8]
                    simp [ih]

/- ### Round-trip lemmas: whitespace and head characters -/

theorem skipWs_append_ws (pre cs : List Char) (h : ∀ c ∈ pre, isJsonWs c = true) :
    skipWs (pre ++ cs) = skipWs cs := by
  induction pre with
  | nil => rfl
  | cons p ps ih =>
    have hp := h p (List.mem_cons_self p ps)
    simp only [List.cons_append, skipWs, List.dropWhile_cons, hp, if_true]
    exact ih (fun c hc => h c (List.mem_cons_of_mem p hc))

theorem skipWs_not_ws (c : Char) (cs : List Char) (h : isJsonWs c = false) :
    skipWs (c :: cs) = c :: cs := by
  simp [skipWs, List.dropWhile_cons, h]

theorem nlInd_ws (ind : Option Nat) (lvl : Nat) :
    ∀ c ∈ nlInd ind lvl, isJsonWs c = true := by
  intro c hc
  cases ind with
  | none => simp [nlInd] at hc
  | some n =>
    simp only [nlInd] at hc
    rcases List.mem_cons.mp hc with rfl | hm
    · decide
    · rw [List.eq_of_mem_replicate hm]; decide

theorem isDigit_ne (c : Char) (h : c.isDigit = true) (d : Char)
    (hd : d.isDigit = false) : c ≠ d := by
  intro heq
  rw [heq, hd] at h
  cases h

theorem isJsonWs_eq_false_of (c : Char) (h1 : c ≠ ' ') (h2 : c ≠ Char.ofNat 9)
    (h3 : c ≠ Char.ofNat 10) (h4 : c ≠ Char.ofNat 13) : isJsonWs c = false := by
  simp [isJsonWs, h1, h2, h3, h4]

theorem isDigit_not_ws (c : Char) (h : c.isDigit = true) : isJsonWs c = false :=
  isJsonWs_eq_false_of c (isDigit_ne c h ' ' (by decide))
    (isDigit_ne c h (Char.ofNat 9) (by decide))
    (isDigit_ne c h (Char.ofNat 10) (by decide))
    (isDigit_ne c h (Char.ofNat 13) (by decide))

theorem natDigits_head_any (n : Nat) :
    ∃ c cs, natDigits n = c :: cs ∧ c.isDigit = true := by
  rcases Nat.eq_zero_or_pos n with rfl | hpos
  · exact ⟨'0', [], rfl, by decide⟩
  · obtain ⟨c, cs, heq, hd, _⟩ := natDigits_head n hpos
    exact ⟨c, cs, heq, hd⟩

/-- The first character of a serialized value determines its kind; it is
never whitespace, a closer or a separator. -/
theorem serVal_head (ea : Bool) (ind : Option Nat) (lvl : Nat) (v : JValue) :
    ∃ c cs, serVal ea ind lvl v = c :: cs ∧
      (c = 'n' ∨ c = 't' ∨ c = 'f' ∨ c = '"' ∨ c = '[' ∨ c = '{' ∨ c = '-' ∨
        c.isDigit = true) := by
  cases v with
  | null => exact ⟨'n', _, rfl, by simp⟩
  | bool b =>
    cases b with
    | false => exact ⟨'f', _, rfl, by simp⟩
    | true => exact ⟨'t', _, rfl, by simp⟩
  | int n =>
    cases n with
    | ofNat m =>
      obtain ⟨c, cs, heq, hd⟩ := natDigits_head_any m
      exact ⟨c, cs, heq, by simp [hd]⟩
    | negSucc m => exact ⟨'-', _, rfl, by simp⟩
  | str s => exact ⟨'"', _, rfl, by simp⟩
  | arr items =>
    cases items with
    | nil => exact ⟨'[', _, rfl, by simp⟩
    | cons x xs => exact ⟨'[', _, rfl, by simp⟩
  | obj es =>
    cases es with
    | nil => exact ⟨'{', _, rfl, by simp⟩
    | cons e es2 => exact ⟨'{', _, rfl, by simp⟩

theorem headChar_not_ws (c : Char)
    (h : c = 'n' ∨ c = 't' ∨ c = 'f' ∨ c = '"' ∨ c = '[' ∨ c = '{' ∨ c = '-' ∨
      c.isDigit = true) : isJsonWs c = false := by
  rcases h with rfl | rfl | rfl | rfl | rfl | rfl | rfl | hd
  · decide
  · decide
  · decide
  · decide
  · decide
  · decide
  · decide
  · exact isDigit_not_ws c hd

theorem skipWs_pre_serVal (ea : Bool) (ind : Option Nat) (lvl : Nat) (v : JValue)
    (pre rest : List Char) (hpre : ∀ c ∈ pre, isJsonWs c = true) :
    skipWs (pre ++ (serVal ea ind lvl v ++ rest)) = serVal ea ind lvl v ++ rest := by
  obtain ⟨c, cs, heq, hc⟩ := serVal_head ea ind lvl v
  rw [skipWs_append_ws pre _ hpre, heq, List.cons_append,
    skipWs_not_ws c _ (headChar_not_ws c hc)]

theorem numBoundary_of_head_eq (l : List Char) (c : Char) (hh : l.head? = some c)
    (h1 : c.isDigit = false) (h2 : c ≠ '.') (h3 : c ≠ 'e') (h4 : c ≠ 'E') :
    numBoundary l := by
  intro d hd
  rw [hh] at hd
  cases Option.some.inj hd
  exact ⟨h1, h2, h3, h4⟩

theorem numBoundary_nil : numBoundary [] := by
  intro c h
  cases h

/-- After a serialized array item the input continues with a separator,
whitespace or the closing bracket: never something that could extend a
number. -/
theorem numBoundary_items (ea : Bool) (ind : Option Nat) (lvlIn lvlOut : Nat)
    (xs : List JValue) (r : List Char) :
    numBoundary (serItems ea ind lvlIn xs ++ (nlInd ind lvlOut ++ (']' :: r))) := by
  cases xs with
  | nil =>
    rw [serItems, List.nil_append]
    cases ind with
    | none =>
      exact numBoundary_of_head_eq _ ']' rfl (by decide) (by decide) (by decide) (by decide)
    | some n =>
      exact numBoundary_of_head_eq _ (Char.ofNat 10) rfl (by decide) (by decide)
        (by decide) (by decide)
  | cons y ys =>
    rw [serItems]
    cases ind with
    | none =>
      exact numBoundary_of_head_eq _ ',' rfl (by decide) (by decide) (by decide) (by decide)
    | some n =>
      exact numBoundary_of_head_eq _ ',' rfl (by decide) (by decide) (by decide) (by decide)

/-- The same for object members and the closing brace. -/
theorem numBoundary_entries (ea : Bool) (ind : Option Nat) (lvlIn lvlOut : Nat)
    (es : List (String × JValue)) (r : List Char) :
    numBoundary (serEntries ea ind lvlIn es ++ (nlInd ind lvlOut ++ ('}' :: r))) := by
  cases es with
  | nil =>
    rw [serEntries, List.nil_append]
    cases ind with
    | none =>
      exact numBoundary_of_head_eq _ '}' rfl (by decide) (by decide) (by decide) (by decide)
    | some n =>
      exact numBoundary_of_head_eq _ (Char.ofNat 10) rfl (by decide) (by decide)
        (by decide) (by decide)
  | cons e es2 =>
    rw [serEntries]
    cases ind with
    | none =>
      exact numBoundary_of_head_eq _ ',' rfl (by decide) (by decide) (by decide) (by decide)
    | some n =>
      exact numBoundary_of_head_eq _ ',' rfl (by decide) (by decide) (by decide) (by decide)

theorem itemSep_form (ind : Option Nat) :
    ∃ tl, itemSep ind = ',' :: tl ∧ ∀ c ∈ tl, isJsonWs c = true := by
  cases ind with
  | none =>
    refine ⟨[' '], rfl, ?_⟩
    intro c hc
    rcases List.mem_singleton.mp hc with rfl
    decide
  | some n =>
    refine ⟨[], rfl, ?_⟩
    intro c hc
    cases hc

/-- The serializer-parser round trip, proved by induction on the parser
fuel: any serialized value, preceded by whitespace and followed by input
that cannot extend a number token, parses back to itself; serialized item
and member tails parse back up to their closer. -/
theorem parse_round (ind : Option Nat) : ∀ fuel : Nat,
    (∀ (v : JValue) (lvl : Nat) (pre rest : List Char),
      (∀ c ∈ pre, isJsonWs c = true) →
      (serVal false ind lvl v).length < fuel →
      numBoundary rest →
      parseValue fuel (pre ++ (serVal false ind lvl v ++ rest)) = some (v, rest)) ∧
    (∀ (xs : List JValue) (lvlIn lvlOut : Nat) (rest : List Char),
      (serItems false ind lvlIn xs).length < fuel →
      parseArrTail fuel
        (serItems false ind lvlIn xs ++ (nlInd ind lvlOut ++ (']' :: rest))) =
        some (xs, rest)) ∧
    (∀ (es : List (String × JValue)) (lvlIn lvlOut : Nat) (rest : List Char),
      (serEntries false ind lvlIn es).length < fuel →
      parseObjTail fuel
        (serEntries false ind lvlIn es ++ (nlInd ind lvlOut ++ ('}' :: rest))) =
        some (es, rest)) := by
  intro fuel
  induction fuel with
  | zero =>
    refine ⟨?_, ?_, ?_⟩
    · intro v lvl pre rest hpre hlen hb; omega
    · intro xs l1 l2 rest hlen; omega
    · intro es l1 l2 rest hlen; omega
  | succ fuel ih =>
    obtain ⟨ihP, ihA, ihO⟩ := ih
    refine ⟨?_, ?_, ?_⟩
    · intro v lvl pre rest hpre hlen hb
      rw [parseValue, skipWs_pre_serVal false ind lvl v pre rest hpre]
      cases v with
      | null =>
        rw [show serVal false ind lvl JValue.null = ['n', 'u', 'l', 'l'] from rfl,
          List.cons_append]
        simp
      | bool b =>
        cases b with
        | true =>
          rw [show serVal false ind lvl (JValue.bool true) = ['t', 'r', 'u', 'e'] from rfl,
            List.cons_append]
          simp
        | false =>
          rw [show serVal false ind lvl (JValue.bool false) =
            ['f', 'a', 'l', 's', 'e'] from rfl, List.cons_append]
          simp
      | int n =>
        cases n with
        | ofNat m =>
          obtain ⟨c, cs, heq, hd⟩ := natDigits_head_any m
          have h1 : c ≠ 'n' := isDigit_ne c hd 'n' (by decide)
          have h2 : c ≠ 't' := isDigit_ne c hd 't' (by decide)
          have h3 : c ≠ 'f' := isDigit_ne c hd 'f' (by decide)
          have h4 : c ≠ '"' := isDigit_ne c hd '"' (by decide)
          have h5 : c ≠ '[' := isDigit_ne c hd '[' (by decide)
          have h6 : c ≠ '{' := isDigit_ne c hd '{' (by decide)
          have h7 : c ≠ '-' := isDigit_ne c hd '-' (by decide)
          have htok := parseIntToken_natDigits m rest hb
          rw [show serVal false ind lvl (JValue.int (Int.ofNat m)) = natDigits m from rfl,
            heq, List.cons_append]
          simp only [h1, h2, h3, h4, h5, h6, h7, hd, if_true, if_false]
          simp [h1, h2, h3, h4, h5, h6, h7, hd]
          rw [← List.cons_append, ← heq, htok]
        | negSucc m =>
          have htok := parseIntToken_natDigits (m + 1) rest hb
          rw [show serVal false ind lvl (JValue.int (Int.negSucc m)) =
            '-' :: natDigits (m + 1) from rfl, List.cons_append]
          simp [htok, Int.negSucc_eq]
      | str s =>
        have hstr := parseStrBody_round s.data rest
        rw [show serVal false ind lvl (JValue.str s) =
          '"' :: (s.data.flatMap (escChar false) ++ ['"']) from rfl, List.cons_append]
        simp [hstr]
      | arr items =>
        cases items with
        | nil =>
          rw [show serVal false ind lvl (JValue.arr []) = ['[', ']'] from rfl,
            List.cons_append]
          simp [skipWs_not_ws ']' rest (by decide)]
        | cons x xs =>
          have hser : serVal false ind lvl (JValue.arr (x :: xs)) =
              '[' :: (nlInd ind (lvl + 1) ++ serVal false ind (lvl + 1) x ++
                serItems false ind (lvl + 1) xs ++ nlInd ind lvl ++ [']']) := rfl
          have hlen2 : ('[' :: (nlInd ind (lvl + 1) ++ serVal false ind (lvl + 1) x ++
              serItems false ind (lvl + 1) xs ++ nlInd ind lvl ++ [']'])).length <
              fuel + 1 := by rw [← hser]; exact hlen
          simp only [List.length_cons, List.length_append] at hlen2
          have hx := ihP x (lvl + 1) []
            (serItems false ind (lvl + 1) xs ++ (nlInd ind lvl ++ (']' :: rest)))
            (by intro c hc; cases hc) (by omega)
            (numBoundary_items false ind (lvl + 1) lvl xs rest)
          rw [List.nil_append] at hx
          have hA := ihA xs (lvl + 1) lvl rest (by omega)
          obtain ⟨c, cs, heq, hc⟩ := serVal_head false ind (lvl + 1) x
          have hcne : c ≠ ']' := by
            rcases hc with rfl | rfl | rfl | rfl | rfl | rfl | rfl | hd
            · decide
            · decide
            · decide
            · decide
            · decide
            · decide
            · decide
            · exact isDigit_ne c hd ']' (by decide)
          have hskip : skipWs (nlInd ind (lvl + 1) ++
              (serVal false ind (lvl + 1) x ++ (serItems false ind (lvl + 1) xs ++
                (nlInd ind lvl ++ (']' :: rest))))) =
              serVal false ind (lvl + 1) x ++ (serItems false ind (lvl + 1) xs ++
                (nlInd ind lvl ++ (']' :: rest))) :=
            skipWs_pre_serVal false ind (lvl + 1) x _ _ (nlInd_ws ind (lvl + 1))
          rw [heq, List.cons_append] at hskip hx
          rw [hser, List.cons_append]
          simp [heq, hskip, hcne, hx, hA]
      | obj es =>
        cases es with
        | nil =>
          rw [show serVal false ind lvl (JValue.obj []) = ['{', '}'] from rfl,
            List.cons_append]
          simp [skipWs_not_ws '}' rest (by decide)]
        | cons e es2 =>
          rcases e with ⟨k, v2⟩
          have hser : serVal false ind lvl (JValue.obj ((k, v2) :: es2)) =
              '{' :: (nlInd ind (lvl + 1) ++
                ('"' :: (k.data.flatMap (escChar false) ++ ['"']) ++
                  [':', ' '] ++ serVal false ind (lvl + 1) v2) ++
                serEntries false ind (lvl + 1) es2 ++ nlInd ind lvl ++ ['}']) := rfl
          have hlen2 : ('{' :: (nlInd ind (lvl + 1) ++
              ('"' :: (k.data.flatMap (escChar false) ++ ['"']) ++
                [':', ' '] ++ serVal false ind (lvl + 1) v2) ++
              serEntries false ind (lvl + 1) es2 ++ nlInd ind lvl ++ ['}'])).length <
              fuel + 1 := by rw [← hser]; exact hlen
          simp only [List.length_cons, List.length_append] at hlen2
          have hx := ihP v2 (lvl + 1) [' ']
            (serEntries false ind (lvl + 1) es2 ++ (nlInd ind lvl ++ ('}' :: rest)))
            (by intro c hc; rcases List.mem_singleton.mp hc with rfl; decide)
            (by omega)
            (numBoundary_entries false ind (lvl + 1) lvl es2 rest)
          have hO := ihO es2 (lvl + 1) lvl rest (by omega)
          have hstr := parseStrBody_round k.data
            (':' :: ' ' :: (serVal false ind (lvl + 1) v2 ++
              (serEntries false ind (lvl + 1) es2 ++ (nlInd ind lvl ++ ('}' :: rest)))))
          have hskip : skipWs (nlInd ind (lvl + 1) ++
              ('"' :: (k.data.flatMap (escChar false) ++
                ('"' :: ':' :: ' ' :: (serVal false ind (lvl + 1) v2 ++
                  (serEntries false ind (lvl + 1) es2 ++
                    (nlInd ind lvl ++ ('}' :: rest)))))))) =
              '"' :: (k.data.flatMap (escChar false) ++
                ('"' :: ':' :: ' ' :: (serVal false ind (lvl + 1) v2 ++
                  (serEntries false ind (lvl + 1) es2 ++
                    (nlInd ind lvl ++ ('}' :: rest)))))) := by
            rw [skipWs_append_ws _ _ (nlInd_ws ind (lvl + 1)),
              skipWs_not_ws '"' _ (by decide)]
          rw [List.singleton_append] at hx
          have hk : (String.mk k.data) = k := rfl
          rw [hser, List.cons_append]
          simp [hskip, hstr, hx, hO, hk, skipWs_not_ws ':' _ (by decide)]
    · intro xs lvlIn lvlOut rest hlen
      rw [parseArrTail]
      cases xs with
      | nil =>
        rw [serItems, List.nil_append,
          skipWs_append_ws _ _ (nlInd_ws ind lvlOut), skipWs_not_ws ']' _ (by decide)]
        simp
      | cons y ys =>
        have hlen2 : (itemSep ind ++ nlInd ind lvlIn ++ serVal false ind lvlIn y ++
            serItems false ind lvlIn ys).length < fuel + 1 := hlen
        simp only [List.length_append] at hlen2
        obtain ⟨tl, hsep, htl⟩ := itemSep_form ind
        have hsl : (itemSep ind).length = tl.length + 1 := by rw [hsep]; rfl
        have hpre2 : ∀ c ∈ tl ++ nlInd ind lvlIn, isJsonWs c = true := by
          intro c hc
          rcases List.mem_append.mp hc with h | h
          · exact htl c h
          · exact nlInd_ws ind lvlIn c h
        have hy := ihP y lvlIn (tl ++ nlInd ind lvlIn)
          (serItems false ind lvlIn ys ++ (nlInd ind lvlOut ++ (']' :: rest)))
          hpre2 (by omega)
          (numBoundary_items false ind lvlIn lvlOut ys rest)
        have hA := ihA ys lvlIn lvlOut rest (by omega)
        rw [List.append_assoc] at hy
        rw [serItems, hsep]
        simp [hy, hA, skipWs_not_ws ',' _ (by decide)]
    · intro es lvlIn lvlOut rest hlen
      rw [parseObjTail]
      cases es with
      | nil =>
        rw [serEntries, List.nil_append,
          skipWs_append_ws _ _ (nlInd_ws ind lvlOut), skipWs_not_ws '}' _ (by decide)]
        simp
      | cons e es2 =>
        rcases e with ⟨k, v2⟩
        have hlen2 : (itemSep ind ++ nlInd ind lvlIn ++
            ('"' :: (k.data.flatMap (escChar false) ++ ['"']) ++
              [':', ' '] ++ serVal false ind lvlIn v2) ++
            serEntries false ind lvlIn es2).length < fuel + 1 := hlen
        simp only [List.length_append, List.length_cons] at hlen2
        obtain ⟨tl, hsep, htl⟩ := itemSep_form ind
        have hsl : (itemSep ind).length = tl.length + 1 := by rw [hsep]; rfl
        have hx := ihP v2 lvlIn [' ']
          (serEntries false ind lvlIn es2 ++ (nlInd ind lvlOut ++ ('}' :: rest)))
          (by intro c hc; rcases List.mem_singleton.mp hc with rfl; decide)
          (by omega)
          (numBoundary_entries false ind lvlIn lvlOut es2 rest)
        have hO := ihO es2 lvlIn lvlOut rest (by omega)
        have hstr := parseStrBody_round k.data
          (':' :: ' ' :: (serVal false ind lvlIn v2 ++
            (serEntries false ind lvlIn es2 ++ (nlInd ind lvlOut ++ ('}' :: rest)))))
        have hskip : skipWs (tl ++ (nlInd ind lvlIn ++
            ('"' :: (k.data.flatMap (escChar false) ++
              ('"' :: ':' :: ' ' :: (serVal false ind lvlIn v2 ++
                (serEntries false ind lvlIn es2 ++
                  (nlInd ind lvlOut ++ ('}' :: rest))))))))) =
            '"' :: (k.data.flatMap (escChar false) ++
              ('"' :: ':' :: ' ' :: (serVal false ind lvlIn v2 ++
                (serEntries false ind lvlIn es2 ++
                  (nlInd ind lvlOut ++ ('}' :: rest)))))) := by
          rw [skipWs_append_ws tl _ htl, skipWs_append_ws _ _ (nlInd_ws ind lvlIn),
            skipWs_not_ws '"' _ (by decide)]
        rw [List.singleton_append] at hx
        have hk : (String.mk k.data) = k := rfl
        have hent : serEntry false ind lvlIn (k, v2) =
            '"' :: (k.data.flatMap (escChar false) ++ ['"']) ++ [':', ' '] ++
              serVal false ind lvlIn v2 := rfl
        rw [serEntries, hsep]
        simp [hent, hskip, hstr, hx, hO, hk, skipWs_not_ws ',' _ (by decide),
          skipWs_not_ws ':' _ (by decide)]

/-- C9: parsing back the JSON text produced by json_to_string with its
default options yields the original value (serialization round trip). -/
theorem json_to_string_roundtrip (x : JValue) :
    loads (json_to_string x []).run = some x := by
  have hmain := (parse_round (some 2) ((serVal false (some 2) 0 x).length + 1)).1
    x 0 [] [] (by intro c hc; cases hc) (by omega) numBoundary_nil
  rw [List.nil_append, List.append_nil] at hmain
  show (match parseValue ((serVal false (some 2) 0 x).length + 1)
      (serVal false (some 2) 0 x) with
    | some (v, rest) => if skipWs rest = [] then some v else none
    | none => none) = some x
  rw [hmain]
  rfl

/- ### relative_normpath: posixpath machinery -/

/-- Python str.split on a single separator character: empty pieces are
kept, the empty string splits to one empty piece. -/
def splitOnChar (sep : Char) : List Char → List (List Char)
  | [] => [[]]
  | c :: rest =>
    let r := splitOnChar sep rest
    if c = sep then [] :: r else (c :: r.headD []) :: r.tail

/-- The pieces of a string between slashes. -/
def splitSlash (s : String) : List String := (splitOnChar '/' s.data).map String.mk

/-- Whether a POSIX path is absolute. -/
def isAbs (s : String) : Bool :=
  match s.data with
  | c :: _ => c = '/'
  | [] => false

/-- Whether a path ends with a slash. -/
def endsWithSlash (s : String) : Bool :=
  match s.data.getLast? with
  | some c => c = '/'
  | none => false

/-- The number of initial slashes posixpath.normpath preserves: one, or two
for the POSIX-special double-slash prefix, but one again for three or more. -/
def initialSlashes (cs : List Char) : Nat :=
  match cs with
  | [] => 0
  | c :: rest =>
    if c = '/' then
      match rest with
      | [] => 1
      | c2 :: rest2 =>
        if c2 = '/' then
          match rest2 with
          | [] => 2
          | c3 :: _ => if c3 = '/' then 1 else 2
        else 1
    else 0

/-- One step of the component loop of posixpath.normpath: skip empty and
dot components, keep double-dots only while relative and leading, otherwise
pop. -/
def normStep (hasSlashes : Bool) (state : List String) (comp : String) : List String :=
  if comp = "" ∨ comp = "." then state
  else if comp ≠ ".." ∨ (hasSlashes = false ∧ state = []) ∨
      (state ≠ [] ∧ state.getLast? = some "..") then state ++ [comp]
  else if state ≠ [] then state.dropLast
  else state

/-- Embedding of posixpath.normpath. -/
def normpath (p : String) : String :=
  if p = "" then "." else
  let slashes := initialSlashes p.data
  let newComps := (splitSlash p).foldl (normStep (decide (0 < slashes))) []
  let res := String.mk (List.replicate slashes '/') ++ pyJoin "/" newComps
  if res = "" then "." else res

/-- Embedding of posixpath.join restricted to two arguments, as normpath,
abspath and relpath use it. -/
def pjoin (a b : String) : String :=
  if isAbs b then b
  else if a = "" ∨ endsWithSlash a then a ++ b
  else a ++ "/" ++ b

/-- Embedding of posixpath.abspath against an explicit current working
directory (os.getcwd is always absolute). -/
def abspath (cwd p : String) : String :=
  if isAbs p then normpath p else normpath (pjoin cwd p)

/-- The non-empty slash-separated segments of a path string. -/
def pathSegments (s : String) : List String := (splitSlash s).filter (fun x => x != "")

/-- Length of the common prefix of two segment lists, as
os.path.commonprefix computes for lists. -/
def commonPrefixLen : List String → List String → Nat
  | [], _ => 0
  | _ :: _, [] => 0
  | a :: as2, b :: bs => if a = b then commonPrefixLen as2 bs + 1 else 0

/-- Embedding of posixpath.relpath: both paths made absolute, the common
prefix dropped, one double-dot per remaining start component. -/
def relpath (cwd p start : String) : String :=
  let start_list := pathSegments (abspath cwd start)
  let path_list := pathSegments (abspath cwd p)
  let i := commonPrefixLen start_list path_list
  let rel_list := List.replicate (start_list.length - i) ".." ++ path_list.drop i
  if rel_list = [] then "." else pyJoin "/" rel_list

/-- Embedding of relative_normpath: None maps to None; otherwise
os.path.relpath, which raises ValueError on an empty path (the Path
constructor wrapping the result adds nothing for these already-normalized
strings). -/
def relative_normpath (f : Option String) (path : String) (cwd : String) :
    Except String (Option String) :=
  match f with
  | Option.none => Except.ok Option.none
  | some s =>
    if s = "" then Except.error "no path specified"
    else Except.ok (some (relpath cwd s path))

/-- Following a relative segment list from a base segment list: double-dot
pops, dot stays, a name descends. -/
def followRel (base : List String) : List String → List String
  | [] => base
  | c :: rest =>
    if c = ".." then followRel base.dropLast rest
    else if c = "." then followRel base rest
    else followRel (base ++ [c]) rest

/-- A well-formed path component: non-empty, not a dot form, slash-free. -/
def goodComp (s : String) : Prop :=
  s ≠ "" ∧ s ≠ "." ∧ s ≠ ".." ∧ '/' ∉ s.data

/- ### Lemmas about splitting and joining paths -/

theorem splitOnChar_ne_nil (sep : Char) (cs : List Char) : splitOnChar sep cs ≠ [] := by
  cases cs with
  | nil => simp [splitOnChar]
  | cons c rest => by_cases hc : c = sep <;> simp [splitOnChar, hc]

theorem splitOnChar_no_sep (sep : Char) (cs : List Char) :
    ∀ p ∈ splitOnChar sep cs, sep ∉ p := by
  induction cs with
  | nil =>
    intro p hp
    rcases List.mem_singleton.mp hp with rfl
    simp
  | cons c rest ih =>
    intro p hp
    simp only [splitOnChar] at hp
    rcases hs : splitOnChar sep rest with _ | ⟨hd, tl⟩
    · exact absurd hs (splitOnChar_ne_nil sep rest)
    · rw [hs] at hp
      by_cases hc : c = sep
      · rw [if_pos hc] at hp
        rcases List.mem_cons.mp hp with rfl | hp2
        · simp
        · exact ih p (by rw [hs]; exact hp2)
      · rw [if_neg hc] at hp
        simp only [List.headD_cons, List.tail_cons] at hp
        rcases List.mem_cons.mp hp with rfl | hp2
        · intro hmem
          rcases List.mem_cons.mp hmem with heq | hmem2
          · exact hc heq.symm
          · exact ih hd (by rw [hs]; exact List.mem_cons_self hd tl) hmem2
        · exact ih p (by rw [hs]; exact List.mem_cons_of_mem hd hp2)

theorem splitOnChar_single (sep : Char) (cs : List Char) (h : sep ∉ cs) :
    splitOnChar sep cs = [cs] := by
  induction cs with
  | nil => rfl
  | cons c rest ih =>
    have hc : c ≠ sep := fun he => h (by rw [he]; exact List.mem_cons_self sep rest)
    have hrest : sep ∉ rest := fun hm => h (List.mem_cons_of_mem c hm)
    simp [splitOnChar, ih hrest, hc]

theorem splitOnChar_cons_sep (sep : Char) (cs : List Char) :
    splitOnChar sep (sep :: cs) = [] :: splitOnChar sep cs := by
  simp [splitOnChar]

theorem splitOnChar_append_sep (sep : Char) (x R : List Char) (hx : sep ∉ x) :
    splitOnChar sep (x ++ sep :: R) = x :: splitOnChar sep R := by
  induction x with
  | nil =>
    rw [List.nil_append, splitOnChar_cons_sep]
  | cons c x2 ih =>
    have hc : c ≠ sep := fun he => hx (by rw [he]; exact List.mem_cons_self sep x2)
    have hx2 : sep ∉ x2 := fun hm => hx (List.mem_cons_of_mem c hm)
    rw [List.cons_append]
    simp [splitOnChar, ih hx2, hc]

theorem splitOnChar_replicate_sep (sep : Char) (k : Nat) (cs : List Char) :
    splitOnChar sep (List.replicate k sep ++ cs) =
      List.replicate k [] ++ splitOnChar sep cs := by
  induction k with
  | zero => rfl
  | succ k ih =>
    rw [List.replicate_succ, List.cons_append, splitOnChar_cons_sep, ih,
      List.replicate_succ, List.cons_append]

theorem data_eq_nil_iff (s : String) : s.data = [] ↔ s = "" := by
  constructor
  · intro h
    exact String.ext h
  · intro h
    rw [h]

theorem pyJoin_data_cons_cons (x y : String) (rest : List String) :
    (pyJoin "/" (x :: y :: rest)).data = x.data ++ '/' :: (pyJoin "/" (y :: rest)).data := by
  show (x ++ "/" ++ pyJoin "/" (y :: rest)).data = _
  rw [String.data_append, String.data_append, List.append_assoc]
  rfl

theorem pyJoin_data_ne_nil (l : List String) (hne : l ≠ []) (hall : ∀ s ∈ l, s ≠ "") :
    (pyJoin "/" l).data ≠ [] := by
  cases l with
  | nil => exact absurd rfl hne
  | cons x rest =>
    cases rest with
    | nil =>
      show x.data ≠ []
      intro h
      exact hall x (List.mem_cons_self x []) ((data_eq_nil_iff x).mp h)
    | cons y rest2 =>
      rw [pyJoin_data_cons_cons]
      intro h
      rcases List.append_eq_nil.mp h with ⟨h1, h2⟩
      cases h2

theorem splitOnChar_pyJoin (l : List String) (hne : l ≠ [])
    (hall : ∀ s ∈ l, s ≠ "" ∧ '/' ∉ s.data) :
    splitOnChar '/' (pyJoin "/" l).data = l.map String.data := by
  induction l with
  | nil => exact absurd rfl hne
  | cons x rest ih =>
    cases rest with
    | nil =>
      show splitOnChar '/' x.data = [x.data]
      exact splitOnChar_single '/' x.data (hall x (List.mem_cons_self x [])).2
    | cons y rest2 =>
      rw [pyJoin_data_cons_cons,
        splitOnChar_append_sep '/' _ _ (hall x (List.mem_cons_self x _)).2,
        ih (List.cons_ne_nil y rest2)
          (fun s hs => hall s (List.mem_cons_of_mem x hs))]
      rfl

theorem map_mk_data (l : List String) : (l.map String.data).map String.mk = l := by
  induction l with
  | nil => rfl
  | cons s rest ih =>
    show String.mk s.data :: (rest.map String.data).map String.mk = s :: rest
    rw [ih]

theorem splitSlash_pyJoin (l : List String) (hne : l ≠ [])
    (hall : ∀ s ∈ l, s ≠ "" ∧ '/' ∉ s.data) :
    splitSlash (pyJoin "/" l) = l := by
  rw [splitSlash, splitOnChar_pyJoin l hne hall, map_mk_data]

/- ### Lemmas about the normpath component loop -/

theorem normStep_push (hasSlashes : Bool) (state : List String) (comp : String)
    (h1 : comp ≠ "") (h2 : comp ≠ ".") (h3 : comp ≠ "..") :
    normStep hasSlashes state comp = state ++ [comp] := by
  rw [normStep, if_neg, if_pos (Or.inl h3)]
  rintro (h | h)
  · exact h1 h
  · exact h2 h

theorem foldl_normStep_clean (hasSlashes : Bool) (l : List String)
    (hl : ∀ s ∈ l, s ≠ "" ∧ s ≠ "." ∧ s ≠ "..") :
    ∀ state, l.foldl (normStep hasSlashes) state = state ++ l := by
  induction l with
  | nil => intro state; simp
  | cons c rest ih =>
    intro state
    obtain ⟨h1, h2, h3⟩ := hl c (List.mem_cons_self c rest)
    rw [List.foldl_cons, normStep_push hasSlashes state c h1 h2 h3,
      ih (fun s hs => hl s (List.mem_cons_of_mem c hs))]
    simp

theorem foldl_normStep_pardirs (k : Nat) :
    ∀ state, (state = [] ∨ state.getLast? = some "..") →
      (List.replicate k "..").foldl (normStep false) state =
        state ++ List.replicate k ".." := by
  induction k with
  | zero => intro state _; simp
  | succ k ih =>
    intro state hstate
    rw [List.replicate_succ, List.foldl_cons]
    have hstep : normStep false state ".." = state ++ [".."] := by
      rw [normStep, if_neg (by decide)]
      rcases hstate with rfl | hlast
      · rw [if_pos (Or.inr (Or.inl ⟨rfl, rfl⟩))]
      · have hne : state ≠ [] := by
          intro h
          rw [h] at hlast
          cases hlast
        rw [if_pos (Or.inr (Or.inr ⟨hne, hlast⟩))]
    rw [hstep, ih (state ++ [".."]) (Or.inr (by simp))]
    simp

theorem foldl_normStep_good (comps : List String)
    (hcomps : ∀ s ∈ comps, '/' ∉ s.data) :
    ∀ state, (∀ s ∈ state, goodComp s) →
      ∀ s ∈ comps.foldl (normStep true) state, goodComp s := by
  induction comps with
  | nil => intro state hstate; exact hstate
  | cons c rest ih =>
    intro state hstate
    rw [List.foldl_cons]
    apply ih (fun s hs => hcomps s (List.mem_cons_of_mem c hs))
    intro s hs
    rw [normStep] at hs
    by_cases h1 : c = "" ∨ c = "."
    · rw [if_pos h1] at hs
      exact hstate s hs
    · rw [if_neg h1] at hs
      by_cases h2 : c ≠ ".." ∨ (true = false ∧ state = []) ∨
          (state ≠ [] ∧ state.getLast? = some "..")
      · rw [if_pos h2] at hs
        rcases List.mem_append.mp hs with h | h
        · exact hstate s h
        · rcases List.mem_singleton.mp h with rfl
          rcases h2 with h2 | ⟨hff, _⟩ | ⟨_, hlast⟩
          · have hne1 : s ≠ "" := fun h => h1 (Or.inl h)
            have hne2 : s ≠ "." := fun h => h1 (Or.inr h)
            exact ⟨hne1, hne2, h2, hcomps s (List.mem_cons_self s rest)⟩
          · cases hff
          · have hmem : (".." : String) ∈ state := List.mem_of_mem_getLast? hlast
            exact absurd rfl ((hstate ".." hmem).2.2.1)
      · rw [if_neg h2] at hs
        by_cases h3 : state ≠ []
        · rw [if_pos h3] at hs
          exact hstate s (List.mem_of_mem_dropLast hs)
        · rw [if_neg h3] at hs
          exact hstate s hs

/- ### Lemmas about absolute paths and normpath -/

theorem isAbs_iff (s : String) : isAbs s = true ↔ ∃ t, s.data = '/' :: t := by
  rw [isAbs]
  rcases hd : s.data with _ | ⟨c, t⟩
  · simp
  · simp only [decide_eq_true_eq]
    constructor
    · intro h
      exact ⟨t, by rw [h]⟩
    · rintro ⟨t2, he⟩
      exact (List.cons.injEq c t '/' t2).mp he |>.1

theorem initialSlashes_pos (t : List Char) : 0 < initialSlashes ('/' :: t) := by
  cases t with
  | nil => decide
  | cons c2 r2 =>
    cases r2 with
    | nil =>
      by_cases h2 : c2 = '/' <;> simp [initialSlashes, h2]
    | cons c3 r3 =>
      by_cases h2 : c2 = '/' <;> by_cases h3 : c3 = '/' <;>
        simp [initialSlashes, h2, h3]

theorem normpath_eq (p : String) (hne : p ≠ "") :
    normpath p =
      if String.mk (List.replicate (initialSlashes p.data) '/') ++
          pyJoin "/" ((splitSlash p).foldl
            (normStep (decide (0 < initialSlashes p.data))) []) = "" then "."
      else String.mk (List.replicate (initialSlashes p.data) '/') ++
          pyJoin "/" ((splitSlash p).foldl
            (normStep (decide (0 < initialSlashes p.data))) []) := by
  rw [normpath, if_neg hne]

theorem filter_ne_empty_replicate (k : Nat) :
    (List.replicate k ("" : String)).filter (fun x => x != "") = [] := by
  induction k with
  | zero => rfl
  | succ k ih => simp [List.replicate_succ, List.filter_cons, ih]

theorem pathSegments_slashes_join (slashes : Nat) (newComps : List String)
    (hgood : ∀ s ∈ newComps, goodComp s) :
    pathSegments (String.mk (List.replicate slashes '/') ++ pyJoin "/" newComps) =
      newComps := by
  cases newComps with
  | nil =>
    rw [pathSegments, splitSlash]
    have hdata : (String.mk (List.replicate slashes '/') ++
        pyJoin "/" ([] : List String)).data = List.replicate slashes '/' ++ [] := by
      rw [String.data_append]
      rfl
    rw [hdata, splitOnChar_replicate_sep]
    show (((List.replicate slashes ([] : List Char)) ++ [[]]).map String.mk).filter
      (fun x => x != "") = []
    rw [List.map_append, List.map_replicate]
    show ((List.replicate slashes "") ++ [("" : String)]).filter (fun x => x != "") = []
    rw [List.filter_append, filter_ne_empty_replicate]
    rfl
  | cons x xs =>
    have hall : ∀ s ∈ x :: xs, s ≠ "" ∧ '/' ∉ s.data := fun s hs =>
      ⟨(hgood s hs).1, (hgood s hs).2.2.2⟩
    rw [pathSegments, splitSlash]
    have hdata : (String.mk (List.replicate slashes '/') ++ pyJoin "/" (x :: xs)).data =
        List.replicate slashes '/' ++ (pyJoin "/" (x :: xs)).data := by
      rw [String.data_append]
    rw [hdata, splitOnChar_replicate_sep,
      splitOnChar_pyJoin _ (List.cons_ne_nil x xs) hall,
      List.map_append, List.map_replicate, map_mk_data]
    show ((List.replicate slashes "") ++ (x :: xs)).filter (fun s => s != "") = x :: xs
    rw [List.filter_append, filter_ne_empty_replicate, List.nil_append]
    have hkeep : ∀ s ∈ x :: xs, (s != "") = true := fun s hs => by
      simpa using (hall s hs).1
    rw [List.filter_eq_self.mpr hkeep]

theorem pathSegments_normpath_good (q : String) (t : List Char)
    (hq : q.data = '/' :: t) :
    ∀ s ∈ pathSegments (normpath q), goodComp s := by
  have hne : q ≠ "" := by
    intro h
    rw [h] at hq
    cases hq
  have hpos : 0 < initialSlashes q.data := by
    rw [hq]
    exact initialSlashes_pos t
  have hdec : decide (0 < initialSlashes q.data) = true := decide_eq_true hpos
  have hcompsfree : ∀ s ∈ splitSlash q, '/' ∉ s.data := by
    intro s hs
    rw [splitSlash] at hs
    obtain ⟨p, hp, rfl⟩ := List.mem_map.mp hs
    exact splitOnChar_no_sep '/' q.data p hp
  have hgood : ∀ s ∈ (splitSlash q).foldl
      (normStep (decide (0 < initialSlashes q.data))) [], goodComp s := by
    rw [hdec]
    exact foldl_normStep_good _ hcompsfree []
      (fun s hs => absurd hs (List.not_mem_nil s))
  have hresne : String.mk (List.replicate (initialSlashes q.data) '/') ++
      pyJoin "/" ((splitSlash q).foldl
        (normStep (decide (0 < initialSlashes q.data))) []) ≠ "" := by
    intro h
    have h2 := congrArg String.data h
    rw [String.data_append] at h2
    rcases List.append_eq_nil.mp h2 with ⟨h3, _⟩
    have h4 := congrArg List.length h3
    simp at h4
    omega
  rw [normpath_eq q hne, if_neg hresne, pathSegments_slashes_join _ _ hgood]
  exact hgood

theorem isAbs_pjoin (a b : String) (ha : isAbs a = true) :
    isAbs (pjoin a b) = true := by
  obtain ⟨t, hdata⟩ := (isAbs_iff a).mp ha
  rw [pjoin]
  by_cases hb : isAbs b = true
  · rw [if_pos hb]
    exact hb
  · rw [if_neg hb]
    by_cases hcond : a = "" ∨ endsWithSlash a = true
    · rw [if_pos hcond]
      exact (isAbs_iff _).mpr ⟨t ++ b.data, by rw [String.data_append, hdata]; rfl⟩
    · rw [if_neg hcond]
      refine (isAbs_iff _).mpr ⟨t ++ ('/' :: b.data), ?_⟩
      rw [String.data_append, String.data_append, hdata]
      simp

theorem abspath_eq_normpath (cwd p : String) (hcwd : isAbs cwd = true) :
    ∃ q t, abspath cwd p = normpath q ∧ q.data = '/' :: t := by
  rw [abspath]
  by_cases hp : isAbs p = true
  · obtain ⟨t, ht⟩ := (isAbs_iff p).mp hp
    exact ⟨p, t, by rw [if_pos hp], ht⟩
  · have habs := isAbs_pjoin cwd p hcwd
    obtain ⟨t, ht⟩ := (isAbs_iff _).mp habs
    exact ⟨pjoin cwd p, t, by rw [if_neg hp], ht⟩

theorem pathSegments_abspath_good (cwd p : String) (hcwd : isAbs cwd = true) :
    ∀ s ∈ pathSegments (abspath cwd p), goodComp s := by
  obtain ⟨q, t, heq, hdata⟩ := abspath_eq_normpath cwd p hcwd
  rw [heq]
  exact pathSegments_normpath_good q t hdata

/- ### Lemmas about relpath -/

theorem commonPrefixLen_le_left : ∀ a b : List String, commonPrefixLen a b ≤ a.length := by
  intro a
  induction a with
  | nil => intro b; simp [commonPrefixLen]
  | cons x as2 ih =>
    intro b
    cases b with
    | nil => simp [commonPrefixLen]
    | cons y bs =>
      rw [commonPrefixLen]
      by_cases h : x = y
      · rw [if_pos h]
        have := ih bs
        simp
        omega
      · rw [if_neg h]
        simp

theorem commonPrefixLen_le_right : ∀ a b : List String, commonPrefixLen a b ≤ b.length := by
  intro a
  induction a with
  | nil => intro b; simp [commonPrefixLen]
  | cons x as2 ih =>
    intro b
    cases b with
    | nil => simp [commonPrefixLen]
    | cons y bs =>
      rw [commonPrefixLen]
      by_cases h : x = y
      · rw [if_pos h]
        have := ih bs
        simp
        omega
      · rw [if_neg h]
        simp

theorem commonPrefixLen_take : ∀ a b : List String,
    a.take (commonPrefixLen a b) = b.take (commonPrefixLen a b) := by
  intro a
  induction a with
  | nil => intro b; rfl
  | cons x as2 ih =>
    intro b
    cases b with
    | nil => rfl
    | cons y bs =>
      rw [commonPrefixLen]
      by_cases h : x = y
      · rw [if_pos h, List.take_succ_cons, List.take_succ_cons, ih bs, h]
      · rw [if_neg h]
        rfl

theorem followRel_pardirs : ∀ (k : Nat) (st l : List String), k ≤ st.length →
    followRel st (List.replicate k ".." ++ l) =
      followRel (st.take (st.length - k)) l := by
  intro k
  induction k with
  | zero =>
    intro st l _
    rw [Nat.sub_zero, List.take_length]
    rfl
  | succ k ih =>
    intro st l hk
    rw [List.replicate_succ, List.cons_append, followRel, if_pos rfl,
      ih st.dropLast l (by rw [List.length_dropLast]; omega)]
    have harg : st.dropLast.take (st.dropLast.length - k) =
        st.take (st.length - (k + 1)) := by
      rw [List.length_dropLast, List.dropLast_eq_take, List.take_take]
      congr 1
      omega
    rw [harg]

theorem followRel_clean (l : List String)
    (hl : ∀ s ∈ l, s ≠ ".." ∧ s ≠ ".") :
    ∀ st, followRel st l = st ++ l := by
  induction l with
  | nil => intro st; simp [followRel]
  | cons c rest ih =>
    intro st
    obtain ⟨h1, h2⟩ := hl c (List.mem_cons_self c rest)
    rw [followRel, if_neg h1, if_neg h2,
      ih (fun s hs => hl s (List.mem_cons_of_mem c hs))]
    simp

theorem rel_elements (k : Nat) (l : List String) (hl : ∀ s ∈ l, goodComp s) :
    ∀ s ∈ List.replicate k ".." ++ l, s ≠ "" ∧ '/' ∉ s.data := by
  intro s hs
  rcases List.mem_append.mp hs with h | h
  · rw [List.eq_of_mem_replicate h]
    exact ⟨by decide, by decide⟩
  · exact ⟨(hl s h).1, (hl s h).2.2.2⟩

theorem head_data_of_ne_empty (x : String) (h : x ≠ "") : ∃ c cs, x.data = c :: cs := by
  rcases hd : x.data with _ | ⟨c, cs⟩
  · exact absurd ((data_eq_nil_iff x).mp hd) h
  · exact ⟨c, cs, rfl⟩

theorem pyJoin_data_head (x : String) (xs : List String) (c : Char) (cs : List Char)
    (hx : x.data = c :: cs) :
    ∃ r, (pyJoin "/" (x :: xs)).data = c :: r := by
  cases xs with
  | nil => exact ⟨cs, hx⟩
  | cons y ys =>
    rw [pyJoin_data_cons_cons, hx]
    exact ⟨cs ++ '/' :: (pyJoin "/" (y :: ys)).data, rfl⟩

theorem initialSlashes_ne_slash (c : Char) (r : List Char) (hc : c ≠ '/') :
    initialSlashes (c :: r) = 0 := by
  simp [initialSlashes, hc]

theorem pyJoin_no_trailing (l : List String) (hne : l ≠ [])
    (hall : ∀ s ∈ l, s ≠ "" ∧ '/' ∉ s.data) :
    (pyJoin "/" l).data.getLast? ≠ some '/' := by
  induction l with
  | nil => exact absurd rfl hne
  | cons x rest ih =>
    cases rest with
    | nil =>
      show x.data.getLast? ≠ some '/'
      intro h
      exact (hall x (List.mem_cons_self x [])).2 (List.mem_of_mem_getLast? h)
    | cons y rest2 =>
      rw [pyJoin_data_cons_cons]
      have hjne : (pyJoin "/" (y :: rest2)).data ≠ [] :=
        pyJoin_data_ne_nil _ (List.cons_ne_nil y rest2)
          (fun s hs => (hall s (List.mem_cons_of_mem x hs)).1)
      rw [List.getLast?_append_of_ne_nil x.data (by simp),
        show ('/' :: (pyJoin "/" (y :: rest2)).data) =
          ['/'] ++ (pyJoin "/" (y :: rest2)).data from rfl,
        List.getLast?_append_of_ne_nil _ hjne]
      exact ih (List.cons_ne_nil y rest2)
        (fun s hs => hall s (List.mem_cons_of_mem x hs))

theorem normpath_rel_id (k : Nat) (l : List String) (hl : ∀ s ∈ l, goodComp s)
    (hne : List.replicate k ".." ++ l ≠ []) :
    normpath (pyJoin "/" (List.replicate k ".." ++ l)) =
      pyJoin "/" (List.replicate k ".." ++ l) := by
  have hall : ∀ s ∈ List.replicate k ".." ++ l, s ≠ "" ∧ '/' ∉ s.data :=
    rel_elements k l hl
  have hjdata_ne : (pyJoin "/" (List.replicate k ".." ++ l)).data ≠ [] :=
    pyJoin_data_ne_nil _ hne (fun s hs => (hall s hs).1)
  have hjne : pyJoin "/" (List.replicate k ".." ++ l) ≠ "" :=
    fun h => hjdata_ne ((data_eq_nil_iff _).mpr h)
  obtain ⟨x, xs, hx⟩ : ∃ x xs, List.replicate k ".." ++ l = x :: xs := by
    rcases hr : List.replicate k ".." ++ l with _ | ⟨x, xs⟩
    · exact absurd hr hne
    · exact ⟨x, xs, rfl⟩
  obtain ⟨c, cs, hcd⟩ := head_data_of_ne_empty x
    ((hall x (by rw [hx]; exact List.mem_cons_self x xs)).1)
  have hcne : c ≠ '/' := by
    intro h
    apply (hall x (by rw [hx]; exact List.mem_cons_self x xs)).2
    rw [hcd, h]
    exact List.mem_cons_self '/' cs
  obtain ⟨r, hjd⟩ : ∃ r, (pyJoin "/" (List.replicate k ".." ++ l)).data = c :: r := by
    rw [hx]
    exact pyJoin_data_head x xs c cs hcd
  have hslz : initialSlashes (pyJoin "/" (List.replicate k ".." ++ l)).data = 0 := by
    rw [hjd]
    exact initialSlashes_ne_slash c r hcne
  have hsplit : splitSlash (pyJoin "/" (List.replicate k ".." ++ l)) =
      List.replicate k ".." ++ l := splitSlash_pyJoin _ hne hall
  have hfold : (List.replicate k ".." ++ l).foldl (normStep (decide (0 < 0))) [] =
      List.replicate k ".." ++ l := by
    show (List.replicate k ".." ++ l).foldl (normStep false) [] = _
    rw [List.foldl_append, foldl_normStep_pardirs k [] (Or.inl rfl), List.nil_append,
      foldl_normStep_clean false l
        (fun s hs => ⟨(hl s hs).1, (hl s hs).2.1, (hl s hs).2.2.1⟩)]
  rw [normpath_eq _ hjne, hslz, hsplit, hfold]
  rw [show List.replicate 0 '/' = ([] : List Char) from rfl]
  rw [show String.mk ([] : List Char) ++ pyJoin "/" (List.replicate k ".." ++ l) =
    pyJoin "/" (List.replicate k ".." ++ l) from rfl]
  rw [if_neg hjne]

/-- C4 (amended): relative_normpath returns an absent result exactly for a
null file argument; an empty-string file raises the ValueError of
os.path.relpath instead. For any other file it returns the relative path:
a non-empty string with no trailing slash, invariant under normpath (no
redundant segments), whose segments followed from the base directory land
exactly on the absolute segments of the file. -/
theorem relative_normpath_spec (cwd f base : String)
    (hcwd : isAbs cwd = true) (hf : f ≠ "") :
    relative_normpath Option.none base cwd = Except.ok Option.none ∧
    ∃ r, relative_normpath (some f) base cwd = Except.ok (some r) ∧
      r ≠ "" ∧ r.data.getLast? ≠ some '/' ∧ normpath r = r ∧
      followRel (pathSegments (abspath cwd base))
        ((splitSlash r).filter (fun x => x != "")) =
        pathSegments (abspath cwd f) := by
  refine ⟨rfl, relpath cwd f base, by rw [relative_normpath, if_neg hf], ?_⟩
  have hple := commonPrefixLen_le_left (pathSegments (abspath cwd base))
    (pathSegments (abspath cwd f))
  have hple2 := commonPrefixLen_le_right (pathSegments (abspath cwd base))
    (pathSegments (abspath cwd f))
  have hgoodpl : ∀ s ∈ pathSegments (abspath cwd f), goodComp s :=
    pathSegments_abspath_good cwd f hcwd
  have hreleq : relpath cwd f base =
      if (List.replicate ((pathSegments (abspath cwd base)).length -
            commonPrefixLen (pathSegments (abspath cwd base))
              (pathSegments (abspath cwd f))) ".." ++
          (pathSegments (abspath cwd f)).drop
            (commonPrefixLen (pathSegments (abspath cwd base))
              (pathSegments (abspath cwd f)))) = [] then "."
      else pyJoin "/" (List.replicate ((pathSegments (abspath cwd base)).length -
            commonPrefixLen (pathSegments (abspath cwd base))
              (pathSegments (abspath cwd f))) ".." ++
          (pathSegments (abspath cwd f)).drop
            (commonPrefixLen (pathSegments (abspath cwd base))
              (pathSegments (abspath cwd f)))) := rfl
  by_cases hrel : (List.replicate ((pathSegments (abspath cwd base)).length -
        commonPrefixLen (pathSegments (abspath cwd base))
          (pathSegments (abspath cwd f))) ".." ++
      (pathSegments (abspath cwd f)).drop
        (commonPrefixLen (pathSegments (abspath cwd base))
          (pathSegments (abspath cwd f)))) = []
  · rcases List.append_eq_nil.mp hrel with ⟨h1, h2⟩
    have hk : (pathSegments (abspath cwd base)).length -
        commonPrefixLen (pathSegments (abspath cwd base))
          (pathSegments (abspath cwd f)) = 0 := by
      have := congrArg List.length h1
      simpa using this
    have hdrop : (pathSegments (abspath cwd f)).length ≤
        commonPrefixLen (pathSegments (abspath cwd base))
          (pathSegments (abspath cwd f)) := by
      have := congrArg List.length h2
      simp [List.length_drop] at this
      omega
    have hslpl : pathSegments (abspath cwd base) = pathSegments (abspath cwd f) := by
      have htk := commonPrefixLen_take (pathSegments (abspath cwd base))
        (pathSegments (abspath cwd f))
      calc pathSegments (abspath cwd base)
          = (pathSegments (abspath cwd base)).take
              (commonPrefixLen (pathSegments (abspath cwd base))
                (pathSegments (abspath cwd f))) := by
            rw [show commonPrefixLen (pathSegments (abspath cwd base))
                (pathSegments (abspath cwd f)) =
              (pathSegments (abspath cwd base)).length from by omega, List.take_length]
        _ = (pathSegments (abspath cwd f)).take
              (commonPrefixLen (pathSegments (abspath cwd base))
                (pathSegments (abspath cwd f))) := htk
        _ = pathSegments (abspath cwd f) := by
            rw [show commonPrefixLen (pathSegments (abspath cwd base))
                (pathSegments (abspath cwd f)) =
              (pathSegments (abspath cwd f)).length from by omega, List.take_length]
    have hr : relpath cwd f base = "." := by rw [hreleq, if_pos hrel]
    rw [hr]
    refine ⟨by decide, by decide, by decide, ?_⟩
    rw [show (splitSlash ".").filter (fun x => x != "") = ["."] from rfl]
    have hfol : followRel (pathSegments (abspath cwd base)) ["."] =
        pathSegments (abspath cwd base) := by
      simp [followRel]
    rw [hfol]
    exact hslpl
  · have hr : relpath cwd f base =
        pyJoin "/" (List.replicate ((pathSegments (abspath cwd base)).length -
            commonPrefixLen (pathSegments (abspath cwd base))
              (pathSegments (abspath cwd f))) ".." ++
          (pathSegments (abspath cwd f)).drop
            (commonPrefixLen (pathSegments (abspath cwd base))
              (pathSegments (abspath cwd f)))) := by
      rw [hreleq, if_neg hrel]
    have hgooddrop : ∀ s ∈ (pathSegments (abspath cwd f)).drop
        (commonPrefixLen (pathSegments (abspath cwd base))
          (pathSegments (abspath cwd f))), goodComp s :=
      fun s hs => hgoodpl s (List.drop_subset _ _ hs)
    have hall := rel_elements
      ((pathSegments (abspath cwd base)).length -
        commonPrefixLen (pathSegments (abspath cwd base)) (pathSegments (abspath cwd f)))
      ((pathSegments (abspath cwd f)).drop
        (commonPrefixLen (pathSegments (abspath cwd base)) (pathSegments (abspath cwd f))))
      hgooddrop
    have hjdne := pyJoin_data_ne_nil _ hrel (fun s hs => (hall s hs).1)
    refine ⟨?_, ?_, ?_, ?_⟩
    · rw [hr]
      exact fun h => hjdne ((data_eq_nil_iff _).mpr h)
    · rw [hr]
      exact pyJoin_no_trailing _ hrel hall
    · rw [hr]
      exact normpath_rel_id _ _ hgooddrop hrel
    · rw [hr, splitSlash_pyJoin _ hrel hall,
        List.filter_eq_self.mpr (fun s hs => by simpa using (hall s hs).1),
        followRel_pardirs _ _ _ (by omega),
        show (pathSegments (abspath cwd base)).length -
            ((pathSegments (abspath cwd base)).length -
              commonPrefixLen (pathSegments (abspath cwd base))
                (pathSegments (abspath cwd f))) =
          commonPrefixLen (pathSegments (abspath cwd base))
            (pathSegments (abspath cwd f)) from by omega,
        followRel_clean _
          (fun s hs => ⟨(hgooddrop s hs).2.2.1, (hgooddrop s hs).2.1⟩),
        commonPrefixLen_take]
      exact List.take_append_drop _ _

/-- C4 witness: the amended statement on concrete paths, plus the concrete
relative result. -/
theorem relative_normpath_spec_witness :
    relative_normpath Option.none "/a/d" "/" = Except.ok Option.none ∧
    relative_normpath (some "/a/b/c") "/a/d" "/" = Except.ok (some "../b/c") := by
  constructor
  · exact (relative_normpath_spec "/" "/a/b/c" "/a/d" (by decide) (by decide)).1
  · obtain ⟨r, hr, _⟩ :=
      (relative_normpath_spec "/" "/a/b/c" "/a/d" (by decide) (by decide)).2
    rw [hr]
    have : r = relpath "/" "/a/b/c" "/a/d" := by
      have := hr
      rw [relative_normpath, if_neg (by decide)] at this
      exact (Option.some.inj (Except.ok.inj this)).symm
    rw [this]
    rfl

/-- C4 counterexample: an empty-string (empty-equivalent) file argument
does not yield an absent result: os.path.relpath raises ValueError on it. -/
theorem relative_normpath_empty_counterexample :
    relative_normpath (some "") "/a/d" "/" = Except.error "no path specified" ∧
    relative_normpath (some "") "/a/d" "/" ≠ Except.ok Option.none := by
  refine ⟨rfl, fun h => ?_⟩
  rw [show relative_normpath (some "") "/a/d" "/" =
    Except.error "no path specified" from rfl] at h
  exact Except.noConfusion h
